import Mathlib

/-!
# FleetKeeper website script (`src/js/main.js`): language system and cookie helper

A shallow embedding of the i18n layer (`initLanguage`, `loadTranslations`,
`changeLanguage`, `applyTranslations`, `getNestedTranslation`,
`updateLanguageSelector`) and of `getCookie` / `initCookieConsent`.

Conventions of the embedding:

* the module-level variables `currentTranslations` and `currentLang`, the
  `localStorage` entry `fleetkeeper_lang`, `document.documentElement.lang`, the page
  and the log of issued fetches form an explicit `State`;
* an `async` function is its run-to-completion state transformer; the outcome of the
  `n`-th fetch of the session is supplied by an `Env`;
* strings are Lean strings (sequences of Unicode scalar values).  `split`,
  `charAt`, `substring` and `indexOf` are only used with ASCII separators and with
  offsets that are lengths of a prefix already matched, where this agrees with
  JavaScript's UTF-16 view; property access on a string leaf (`stringOwn`) counts in
  UTF-16 code units;
* members that a value inherits from the built-in prototypes of the JavaScript runtime
  are not part of the repository; they are a parameter, `Host`;
* a locale file that parses holds a JSON object of nested string-keyed mappings with
  string leaves, as the specification lays down; `localStorage` reads and writes succeed;
* the page is modelled twice.  `Page` lists the elements that the script touches, each
  with a text of its own; it serves where the nesting of elements plays no role (the
  state as a whole, idempotence).  `DomNode` is the tree of the page, where the text of an
  element is the text below it and assigning it replaces the children; it serves for the
  content of single elements.  `applyTranslationsDom_embedPage` shows that the two agree
  on pages whose elements hold only text.
-/

namespace FleetKeeper

/-! ## Strings -/

/-- The pieces of a character list between the occurrences of `sep`. -/
def splitChars (sep : Char) : List Char → List (List Char)
  | [] => [[]]
  | c :: cs =>
    if c = sep then [] :: splitChars sep cs
    else
      match splitChars sep cs with
      | [] => [[c]]
      | s :: ss => (c :: s) :: ss

/-- JavaScript `s.split(sep)` for a one-character separator. -/
def split (s : String) (sep : Char) : List String :=
  (splitChars sep s.data).map String.mk

/-- JavaScript `s.charAt(0) === ch`. -/
def charAt0Is (s : String) (ch : Char) : Bool :=
  match s.data with
  | [] => false
  | c :: _ => c == ch

/-- JavaScript `s.substring(start, s.length)`. -/
def substringFrom (s : String) (start : Nat) : String :=
  String.mk (s.data.drop start)

/-- First position at or after offset `i` where `pat` occurs, `-1` if there is none. -/
def indexOfChars (pat : List Char) : List Char → Nat → Int
  | [], i => if pat.isPrefixOf [] then (i : Int) else -1
  | c :: cs, i => if pat.isPrefixOf (c :: cs) then (i : Int) else indexOfChars pat cs (i + 1)

/-- JavaScript `s.indexOf(pat)`. -/
def indexOf (s pat : String) : Int :=
  indexOfChars pat.data s.data 0

/-! ## Configuration -/

def SUPPORTED_LANGUAGES : List String :=
  ["en", "ro", "de", "hu", "pl", "fr", "es", "it", "pt", "nl", "bg", "cs"]

def DEFAULT_LANGUAGE : String := "en"

/-! ## Values -/

/-- The values the language system handles: what a locale file holds (string leaves
and nested mappings, as association lists whose first binding of a key is the
property), the results of property access on them, and values supplied by the
runtime (`builtin`: an inherited method, a prototype object, ...). -/
inductive JSValue where
  | undefined
  | null
  | number (n : Nat)
  | string (s : String)
  | object (props : List (String × JSValue))
  | builtin (tag : Nat)

/-- A translation document: the properties of the root JSON object. -/
abbrev Doc := List (String × JSValue)

/-- The part of the JavaScript runtime that the script relies on and that is not in
the repository. -/
structure Host where
  /-- The value `v[k]` when `k` is not an own property of `v`: the lookup along the
  prototype chain (`undefined` when no prototype defines `k`). -/
  inherited : JSValue → String → JSValue
  /-- The one-unit string `s[i]` when that UTF-16 unit is half of a surrogate pair. -/
  surrogateAt : String → Nat → JSValue
  /-- Truthiness of a built-in value. -/
  builtinTruthy : Nat → Bool
  /-- The string a DOM setter stores for a value that is not a string. -/
  text : JSValue → String

/-- A runtime in which nothing is inherited, with the standard string conversions. -/
def bareHost : Host where
  inherited := fun _ _ => JSValue.undefined
  surrogateAt := fun _ _ => JSValue.undefined
  builtinTruthy := fun _ => true
  text := fun v =>
    match v with
    | JSValue.undefined => "undefined"
    | JSValue.null => "null"
    | JSValue.number n => toString n
    | JSValue.string s => s
    | JSValue.object _ => "[object Object]"
    | JSValue.builtin _ => ""

/-- JavaScript truthiness (`if (v)`, `v && ...`). -/
def truthy (host : Host) : JSValue → Bool
  | JSValue.undefined => false
  | JSValue.null => false
  | JSValue.number n => n != 0
  | JSValue.string s => s != ""
  | JSValue.object _ => true
  | JSValue.builtin t => host.builtinTruthy t

/-- The string stored by `el.textContent = v`, `el.placeholder = v`, `el.title = v`,
`document.title = v`, `metaDesc.content = v`. -/
def toText (host : Host) : JSValue → String
  | JSValue.string s => s
  | v => host.text v

/-- The UTF-16 code units of a string: a character of the Basic Multilingual Plane is
one unit, any other character is two surrogate halves (`none`). -/
def utf16Units (s : String) : List (Option Char) :=
  s.data.flatMap fun c => if c.toNat < 65536 then [some c] else [none, none]

/-- A canonical array index: the decimal numeral of a natural number, without leading
zeros. -/
def arrayIndex (k : String) : Option Nat :=
  match k.data with
  | [] => none
  | c :: cs =>
    if (c :: cs).all Char.isDigit && (c != '0' || cs.isEmpty) then
      some ((c :: cs).foldl (fun n d => 10 * n + (d.toNat - '0'.toNat)) 0)
    else none

/-- Own properties of a string value: `length` and its integer indices. -/
def stringOwn (host : Host) (s : String) (k : String) : Option JSValue :=
  if k = "length" then some (JSValue.number (utf16Units s).length)
  else
    match arrayIndex k with
    | none => none
    | some i =>
      match (utf16Units s).get? i with
      | none => none
      | some (some c) => some (JSValue.string (String.singleton c))
      | some none => some (host.surrogateAt s i)

/-- Property access `obj[k]` on a value that is neither `undefined` nor `null`. -/
def getProp (host : Host) (obj : JSValue) (k : String) : JSValue :=
  match obj with
  | JSValue.object props =>
    match props.lookup k with
    | some v => v
    | none => host.inherited obj k
  | JSValue.string s =>
    match stringOwn host s k with
    | some v => v
    | none => host.inherited obj k
  | v => host.inherited v k

/-- Optional chaining `obj?.[k]`. -/
def getPropOpt (host : Host) (obj : JSValue) (k : String) : JSValue :=
  match obj with
  | JSValue.undefined => JSValue.undefined
  | JSValue.null => JSValue.undefined
  | v => getProp host v k

/-! ## Page and state -/

/-- An element of the page with the attributes and properties the script touches. -/
structure Element where
  elemId : Option String
  isMetaDescription : Bool
  dataI18n : Option String
  dataI18nPlaceholder : Option String
  dataI18nTitle : Option String
  textContent : String
  placeholder : String
  title : String
  content : String
  value : String
deriving DecidableEq

/-- The page as the list of the elements the script touches, in document order, none
inside another, and the title of the document. -/
structure Page where
  elements : List Element
  title : String
deriving DecidableEq

structure State where
  currentTranslations : Doc
  currentLang : String
  /-- The `localStorage` entry `fleetkeeper_lang`. -/
  storedLang : Option String
  /-- The attribute `document.documentElement.lang`. -/
  htmlLang : String
  /-- The URLs fetched so far, oldest first. -/
  fetchLog : List String
  page : Page

/-- Outcome of `fetch(url)` followed by `response.json()`. -/
inductive FetchResult where
  /-- The promise returned by `fetch` rejects. -/
  | networkError
  /-- A response with `response.ok = false`. -/
  | notOk
  /-- A response with `response.ok = true` whose body `response.json()` rejects. -/
  | malformed
  /-- A response with `response.ok = true` whose body parses to the object `doc`. -/
  | ok (doc : Doc)

/-- The network: the outcome of a fetch, given how many fetches were issued before it
and its URL. -/
structure Env where
  fetch : Nat → String → FetchResult

def localeUrl (lang : String) : String :=
  "/locales/" ++ lang ++ ".json"

/-! ## Language system -/

/-- JavaScript `v && SUPPORTED_LANGUAGES.includes(v)` for a value that is a string or
absent (`null` / `undefined`). -/
def isSupportedCandidate (v : Option String) : Bool :=
  match v with
  | none => false
  | some s => s != "" && SUPPORTED_LANGUAGES.contains s

/-- The expression `navigator.language?.split('-')[0]`. -/
def browserPrimarySubtag (navigatorLanguage : Option String) : Option String :=
  match navigatorLanguage with
  | none => none
  | some l => (split l '-').head?

/-- The priority chain of `initLanguage`: URL > Saved > Browser > Default. -/
def resolveLanguage (urlLang savedLang browserLang : Option String) : String :=
  if isSupportedCandidate urlLang then urlLang.getD DEFAULT_LANGUAGE
  else if isSupportedCandidate savedLang then savedLang.getD DEFAULT_LANGUAGE
  else if isSupportedCandidate browserLang then browserLang.getD DEFAULT_LANGUAGE
  else DEFAULT_LANGUAGE

/-- The function `loadTranslations(lang)`: one fetch; on success the document, the stored
preference and the `lang` attribute are replaced; on each of the three failures the
default language is loaded instead, unless `lang` is the default. -/
def loadTranslations (env : Env) (lang : String) (st : State) : State :=
  let st1 := { st with fetchLog := st.fetchLog ++ [localeUrl lang] }
  match env.fetch st.fetchLog.length (localeUrl lang) with
  | FetchResult.ok doc =>
    { st1 with currentTranslations := doc, storedLang := some lang, htmlLang := lang }
  | FetchResult.notOk =>
    if lang ≠ DEFAULT_LANGUAGE then loadTranslations env DEFAULT_LANGUAGE st1 else st1
  | FetchResult.networkError =>
    if lang ≠ DEFAULT_LANGUAGE then loadTranslations env DEFAULT_LANGUAGE st1 else st1
  | FetchResult.malformed =>
    if lang ≠ DEFAULT_LANGUAGE then loadTranslations env DEFAULT_LANGUAGE st1 else st1
termination_by (if lang = DEFAULT_LANGUAGE then 0 else 1)
decreasing_by all_goals simp_all

/-- The function `getNestedTranslation(key)`:
`key.split('.').reduce((obj, k) => obj && obj[k], currentTranslations)`. -/
def getNestedTranslation (host : Host) (currentTranslations : Doc) (key : String) : JSValue :=
  (split key '.').foldl
    (fun obj k => if truthy host obj then getProp host obj k else obj)
    (JSValue.object currentTranslations)

/-- JavaScript `Object.keys(obj)` for a document. -/
def objectKeys (doc : Doc) : List String :=
  (doc.map Prod.fst).eraseDups

/-- Body of the `forEach` over `[data-i18n]`. -/
def translateText (host : Host) (doc : Doc) (el : Element) : Element :=
  match el.dataI18n with
  | none => el
  | some key =>
    let translation := getNestedTranslation host doc key
    if truthy host translation then { el with textContent := toText host translation } else el

/-- Body of the `forEach` over `[data-i18n-placeholder]`. -/
def translatePlaceholder (host : Host) (doc : Doc) (el : Element) : Element :=
  match el.dataI18nPlaceholder with
  | none => el
  | some key =>
    let translation := getNestedTranslation host doc key
    if truthy host translation then { el with placeholder := toText host translation } else el

/-- Body of the `forEach` over `[data-i18n-title]`. -/
def translateTitle (host : Host) (doc : Doc) (el : Element) : Element :=
  match el.dataI18nTitle with
  | none => el
  | some key =>
    let translation := getNestedTranslation host doc key
    if truthy host translation then { el with title := toText host translation } else el

/-- Applies `f` to the first element that satisfies `p` (`document.querySelector`,
`document.getElementById`), if there is one. -/
def updateFirst (p : Element → Bool) (f : Element → Element) : List Element → List Element
  | [] => []
  | el :: els => if p el then f el :: els else el :: updateFirst p f els

/-- The function `applyTranslations()`.  The document is an object, so the test
`!currentTranslations` is false and the early return is taken exactly when
`Object.keys(currentTranslations)` is empty. -/
def applyTranslations (host : Host) (st : State) : State :=
  if (objectKeys st.currentTranslations).length = 0 then st
  else
    let doc := st.currentTranslations
    let els1 := st.page.elements.map (translateText host doc)
    let els2 := els1.map (translatePlaceholder host doc)
    let els3 := els2.map (translateTitle host doc)
    let meta := getProp host (JSValue.object doc) "meta"
    let metaTitle := getPropOpt host meta "title"
    let pageTitle := if truthy host metaTitle then toText host metaTitle else st.page.title
    let metaDescription := getPropOpt host meta "description"
    let els4 :=
      if truthy host metaDescription then
        updateFirst (fun el => el.isMetaDescription)
          (fun el => { el with content := toText host metaDescription }) els3
      else els3
    { st with page := { elements := els4, title := pageTitle } }

/-- The function `updateLanguageSelector()`. -/
def updateLanguageSelector (host : Host) (st : State) : State :=
  let els1 :=
    updateFirst (fun el => el.elemId == some "language-selector")
      (fun el => { el with value := st.currentLang }) st.page.elements
  let langName := getProp host (JSValue.object st.currentTranslations) "langName"
  let els2 :=
    if truthy host langName then
      updateFirst (fun el => el.elemId == some "current-lang")
        (fun el => { el with textContent := toText host langName }) els1
    else els1
  { st with page := { st.page with elements := els2 } }

/-- The function `initLanguage()`; `urlLang` is the `lang` query parameter and
`navigatorLanguage` the value of `navigator.language`. -/
def initLanguage (env : Env) (host : Host) (urlLang navigatorLanguage : Option String)
    (st : State) : State :=
  let savedLang := st.storedLang
  let browserLang := browserPrimarySubtag navigatorLanguage
  let st1 := { st with currentLang := resolveLanguage urlLang savedLang browserLang }
  updateLanguageSelector host (applyTranslations host (loadTranslations env st1.currentLang st1))

/-- The function `changeLanguage(lang)`. -/
def changeLanguage (env : Env) (host : Host) (lang : String) (st : State) : State :=
  if !SUPPORTED_LANGUAGES.contains lang then st
  else
    let st1 := { st with currentLang := lang }
    updateLanguageSelector host (applyTranslations host (loadTranslations env lang st1))

/-- The exported `getCurrentLang()`. -/
def getCurrentLang (st : State) : String := st.currentLang

/-- The state when the script is loaded, on a given page with a given stored entry. -/
def initialState (page : Page) (stored : Option String) (htmlLang : String) : State where
  currentTranslations := []
  currentLang := DEFAULT_LANGUAGE
  storedLang := stored
  htmlLang := htmlLang
  fetchLog := []
  page := page

/-! ## Cookie helper -/

/-- The loop `while (c.charAt(0) === ' ') c = c.substring(1, c.length)`; the fuel is the
length of `c`, which each iteration lowers by one. -/
def stripLeadingSpaces : Nat → String → String
  | 0, c => c
  | fuel + 1, c => if charAt0Is c ' ' then stripLeadingSpaces fuel (substringFrom c 1) else c

/-- The `for` loop of `getCookie` over the pieces `ca[i]`, `ca[i+1]`, ... -/
def getCookieLoop (nameEQ : String) : List String → Option String
  | [] => none
  | c0 :: rest =>
    let c := stripLeadingSpaces c0.length c0
    if indexOf c nameEQ = 0 then some (substringFrom c nameEQ.length)
    else getCookieLoop nameEQ rest

/-- The function `getCookie(name)` on the value of `document.cookie`; `none` is `null`. -/
def getCookie (documentCookie : String) (name : String) : Option String :=
  let nameEQ := name ++ "="
  let ca := split documentCookie ';'
  getCookieLoop nameEQ ca

/-- The decision of `initCookieConsent`: whether showing the banner is scheduled
(`banner` exists and `!consent`). -/
def initCookieConsent (bannerPresent : Bool) (documentCookie : String) : Bool :=
  if !bannerPresent then false
  else
    match getCookie documentCookie "cookie_consent" with
    | none => true
    | some consent => consent == ""

/-! ## Statement of the resolution order, in the words of the specification -/

/-- One step of the priority order: the source's code if it is present and in the
Supported Language Set, the outcome of the later sources otherwise. -/
def supportedOrElse (source : Option String) (later : String) : String :=
  match source with
  | some code => if code ∈ SUPPORTED_LANGUAGES then code else later
  | none => later

/-- The primary subtag of a locale: the text before the first `-`. -/
def primarySubtag (locale : String) : String :=
  String.mk (locale.data.takeWhile fun c => c != '-')

/-- The language the specification prescribes at startup: URL parameter, else persisted
choice, else primary subtag of the browser locale, else `en`. -/
def specResolvedLanguage (urlLang stored browserLocale : Option String) : String :=
  supportedOrElse urlLang
    (supportedOrElse stored
      (supportedOrElse (browserLocale.map primarySubtag) "en"))

/-- A fetch outcome that is not a successfully parsed document. -/
def FetchResult.failed : FetchResult → Bool
  | FetchResult.ok _ => false
  | _ => true

/-- A network on which every request fails. -/
def offlineEnv : Env where
  fetch := fun _ _ => FetchResult.networkError

/-- An empty page. -/
def emptyPage : Page where
  elements := []
  title := ""

/-- The state at load on an empty page with nothing stored. -/
def startState : State := initialState emptyPage none ""

/-- A small English locale document. -/
def enDoc : Doc :=
  [("langName", JSValue.string "English"),
   ("meta", JSValue.object [("title", JSValue.string "FleetKeeper"),
                            ("description", JSValue.string "Fleet management")]),
   ("hero", JSValue.object [("title", JSValue.string "Welcome")])]

/-- A small German locale document. -/
def deDoc : Doc :=
  [("langName", JSValue.string "Deutsch"),
   ("meta", JSValue.object [("title", JSValue.string "FleetKeeper"),
                            ("description", JSValue.string "Flottenverwaltung")]),
   ("hero", JSValue.object [("title", JSValue.string "Willkommen")])]

/-- A network that serves the English document only: every other locale file answers
with a non-success status. -/
def englishOnlyEnv : Env where
  fetch := fun _ url => if url = "/locales/en.json" then FetchResult.ok enDoc else FetchResult.notOk

/-- A page element without annotations and with empty properties. -/
def blankElement : Element where
  elemId := none
  isMetaDescription := false
  dataI18n := none
  dataI18nPlaceholder := none
  dataI18nTitle := none
  textContent := ""
  placeholder := ""
  title := ""
  content := ""
  value := ""

/-- A page with the language selector, the current-language display and one annotated
heading. -/
def selectorPage : Page where
  elements :=
    [{ blankElement with elemId := some "language-selector", value := "en" },
     { blankElement with elemId := some "current-lang", textContent := "EN" },
     { blankElement with dataI18n := some "hero.title", textContent := "Welcome to FleetKeeper" }]
  title := "FleetKeeper - Fleet Management"

/-! ## Statement of the applicator's effect -/

/-- The content of an annotated property after `applyTranslations` on a non-empty
document: the text of the lookup result of the annotation's key when that result is
truthy, the old content when it is not or when there is no annotation. -/
def rendered (host : Host) (doc : Doc) (attr : Option String) (old : String) : String :=
  match attr with
  | none => old
  | some key =>
    if truthy host (getNestedTranslation host doc key) then
      toText host (getNestedTranslation host doc key)
    else old

/-- The three annotation passes on one element, taken together. -/
def translateAll (host : Host) (doc : Doc) (el : Element) : Element :=
  { el with
    textContent := rendered host doc el.dataI18n el.textContent,
    placeholder := rendered host doc el.dataI18nPlaceholder el.placeholder,
    title := rendered host doc el.dataI18nTitle el.title }

/-- Descent through a document in the words of the specification: one segment at a
time, each segment an entry of the mapping reached so far; `none` when a segment is
missing or the value reached so far is not a mapping. -/
def descend : List String → JSValue → Option JSValue
  | [], v => some v
  | k :: ks, JSValue.object props =>
    match props.lookup k with
    | some v => descend ks v
    | none => none
  | _ :: _, _ => none

/-! ## The page as a tree

`el.textContent` is derived from the text below `el`, and assigning it replaces the
children of `el`: for what `applyTranslations` does to the content of single elements the
page is the tree of its nodes. -/

/-- The attributes and properties of an element that the script reads or writes.
`isTitle` marks an HTML `title` element, `isHead` the `head` element of the document,
`isMetaDescription` an element that matches `meta[name="description"]`. -/
structure ElementData where
  elemId : Option String
  isTitle : Bool
  isHead : Bool
  isMetaDescription : Bool
  dataI18n : Option String
  dataI18nPlaceholder : Option String
  dataI18nTitle : Option String
  placeholder : String
  title : String
  content : String
  value : String
deriving DecidableEq

/-- A node of the page: a text node or an element with its children. -/
inductive DomNode where
  | text (data : String)
  | element (attrs : ElementData) (children : List DomNode)

mutual
/-- The getter `node.textContent`: the text below the node, in tree order. -/
def textContent : DomNode → String
  | DomNode.text data => data
  | DomNode.element _ children => textContentOfList children
/-- The concatenated `textContent` of a list of nodes. -/
def textContentOfList : List DomNode → String
  | [] => ""
  | n :: ns => textContent n ++ textContentOfList ns
end

/-- The children an element has after `el.textContent = s`, and a `title` element after
`document.title = s`: one text node, none when `s` is empty. -/
def textNodes (s : String) : List DomNode :=
  if s = "" then [] else [DomNode.text s]

mutual
/-- The `forEach` over `[data-i18n]` on one node.  The elements are visited in tree
order; an element whose translation is truthy has its children replaced by the text, and
the annotated elements that were inside it are no longer part of the page when their
turn comes. -/
def translateTextNode (host : Host) (doc : Doc) : DomNode → DomNode
  | DomNode.text data => DomNode.text data
  | DomNode.element attrs children =>
    match attrs.dataI18n with
    | none => DomNode.element attrs (translateTextNodes host doc children)
    | some key =>
      if truthy host (getNestedTranslation host doc key) then
        DomNode.element attrs (textNodes (toText host (getNestedTranslation host doc key)))
      else DomNode.element attrs (translateTextNodes host doc children)
/-- The `forEach` over `[data-i18n]` on a list of nodes. -/
def translateTextNodes (host : Host) (doc : Doc) : List DomNode → List DomNode
  | [] => []
  | n :: ns => translateTextNode host doc n :: translateTextNodes host doc ns
end

mutual
/-- Applies `g` to the data of every element. -/
def mapElements (g : ElementData → ElementData) : DomNode → DomNode
  | DomNode.text data => DomNode.text data
  | DomNode.element attrs children => DomNode.element (g attrs) (mapElementsOfList g children)
/-- Applies `g` to the data of every element of a list of nodes. -/
def mapElementsOfList (g : ElementData → ElementData) : List DomNode → List DomNode
  | [] => []
  | n :: ns => mapElements g n :: mapElementsOfList g ns
end

/-- Body of the `forEach` over `[data-i18n-placeholder]`. -/
def translatePlaceholderData (host : Host) (doc : Doc) (attrs : ElementData) : ElementData :=
  match attrs.dataI18nPlaceholder with
  | none => attrs
  | some key =>
    let translation := getNestedTranslation host doc key
    if truthy host translation then { attrs with placeholder := toText host translation }
    else attrs

/-- Body of the `forEach` over `[data-i18n-title]`. -/
def translateTitleData (host : Host) (doc : Doc) (attrs : ElementData) : ElementData :=
  match attrs.dataI18nTitle with
  | none => attrs
  | some key =>
    let translation := getNestedTranslation host doc key
    if truthy host translation then { attrs with title := toText host translation }
    else attrs

mutual
/-- Replaces the first element, in tree order, whose data satisfies `p` by `f` of it;
`none` when no element does. -/
def updateFirstElement (p : ElementData → Bool) (f : ElementData → List DomNode → DomNode) :
    DomNode → Option DomNode
  | DomNode.text _ => none
  | DomNode.element attrs children =>
    if p attrs then some (f attrs children)
    else
      match updateFirstElementOfList p f children with
      | some children' => some (DomNode.element attrs children')
      | none => none
/-- The same on a list of nodes. -/
def updateFirstElementOfList (p : ElementData → Bool)
    (f : ElementData → List DomNode → DomNode) : List DomNode → Option (List DomNode)
  | [] => none
  | n :: ns =>
    match updateFirstElement p f n with
    | some n' => some (n' :: ns)
    | none =>
      match updateFirstElementOfList p f ns with
      | some ns' => some (n :: ns')
      | none => none
end

/-- The data of a newly created `title` element. -/
def newTitleData : ElementData where
  elemId := none
  isTitle := true
  isHead := false
  isMetaDescription := false
  dataI18n := none
  dataI18nPlaceholder := none
  dataI18nTitle := none
  placeholder := ""
  title := ""
  content := ""
  value := ""

/-- The setter `document.title = s`: the children of the first `title` element are
replaced by the text; without a `title` element one is appended to the `head` element;
without either nothing happens. -/
def setDocumentTitle (s : String) (dom : List DomNode) : List DomNode :=
  match updateFirstElementOfList (fun a => a.isTitle)
      (fun a _ => DomNode.element a (textNodes s)) dom with
  | some dom' => dom'
  | none =>
    match updateFirstElementOfList (fun a => a.isHead)
        (fun a cs => DomNode.element a (cs ++ [DomNode.element newTitleData (textNodes s)]))
        dom with
    | some dom' => dom'
    | none => dom

/-- The assignment `metaDesc.content = s` on the first element that matches
`meta[name="description"]`, if there is one. -/
def setMetaDescription (s : String) (dom : List DomNode) : List DomNode :=
  match updateFirstElementOfList (fun a => a.isMetaDescription)
      (fun a cs => DomNode.element { a with content := s } cs) dom with
  | some dom' => dom'
  | none => dom

/-- The function `applyTranslations()` on the tree of the page. -/
def applyTranslationsDom (host : Host) (doc : Doc) (dom : List DomNode) : List DomNode :=
  if (objectKeys doc).length = 0 then dom
  else
    let dom1 := translateTextNodes host doc dom
    let dom2 := mapElementsOfList (translatePlaceholderData host doc) dom1
    let dom3 := mapElementsOfList (translateTitleData host doc) dom2
    let meta := getProp host (JSValue.object doc) "meta"
    let metaTitle := getPropOpt host meta "title"
    let dom4 := if truthy host metaTitle then setDocumentTitle (toText host metaTitle) dom3 else dom3
    let metaDescription := getPropOpt host meta "description"
    if truthy host metaDescription then setMetaDescription (toText host metaDescription) dom4
    else dom4

/-! ## Statement of the applicator's effect on the tree -/

/-- The node at a path: the index of a node of the list, then indices of children. -/
def nodeAt : List DomNode → List Nat → Option DomNode
  | _, [] => none
  | ns, [i] => ns[i]?
  | ns, i :: j :: rest =>
    match ns[i]? with
    | some (DomNode.element _ children) => nodeAt children (j :: rest)
    | _ => none

/-- Whether a value is `undefined`. -/
def JSValue.isUndefined : JSValue → Bool
  | JSValue.undefined => true
  | _ => false

/-- The descent stops at a mapping that has no entry for the segment, and the runtime
gives mappings no inherited member of that name. -/
def missingInMapping (host : Host) : List String → JSValue → Bool
  | [], _ => false
  | k :: ks, JSValue.object props =>
    match props.lookup k with
    | some v => missingInMapping host ks v
    | none => (host.inherited (JSValue.object props) k).isUndefined
  | _ :: _, _ => false

/-- An annotation that leaves the content as it is: there is none, or its key resolves
to a falsy value (an empty string), or a segment of its key is missing in the mapping
reached. -/
def keepsContent (host : Host) (doc : Doc) (attr : Option String) : Bool :=
  match attr with
  | none => true
  | some key =>
    match descend (split key '.') (JSValue.object doc) with
    | some v => !truthy host v
    | none => missingInMapping host (split key '.') (JSValue.object doc)

/-- Every element strictly above the node at the path satisfies `q`. -/
def ancestorsSatisfy (q : ElementData → Bool) : List DomNode → List Nat → Bool
  | _, [] => true
  | _, [_] => true
  | ns, i :: j :: rest =>
    match ns[i]? with
    | some (DomNode.element attrs children) =>
      q attrs && ancestorsSatisfy q children (j :: rest)
    | _ => true

/-- An element whose children `applyTranslations` does not replace, for the reasons the
specification gives: it is not a `title` element, and its `data-i18n` annotation leaves
the content as it is. -/
def keepsChildren (host : Host) (doc : Doc) (attrs : ElementData) : Bool :=
  keepsContent host doc attrs.dataI18n && !attrs.isTitle

mutual
/-- Every element of the node, the node itself included, satisfies `r`. -/
def allElements (r : ElementData → Bool) : DomNode → Bool
  | DomNode.text _ => true
  | DomNode.element attrs children => r attrs && allElementsOfList r children
/-- Every element of the nodes satisfies `r`. -/
def allElementsOfList (r : ElementData → Bool) : List DomNode → Bool
  | [] => true
  | n :: ns => allElements r n && allElementsOfList r ns
end

/-- An element without `data-i18n` annotation that is neither a `title` element nor the
`head` element. -/
def plainData (attrs : ElementData) : Bool :=
  attrs.dataI18n.isNone && !attrs.isTitle && !attrs.isHead

/-- No element of the nodes carries a `data-i18n` annotation, is a `title` element or is
the `head` element. -/
def plainNodes (ns : List DomNode) : Bool :=
  allElementsOfList plainData ns
/-- The node at a path all of whose proper ancestors satisfy `q`. -/
def nodeUnder (q : ElementData → Bool) : List DomNode → List Nat → Option DomNode
  | _, [] => none
  | ns, [i] => ns[i]?
  | ns, i :: j :: rest =>
    match ns[i]? with
    | some (DomNode.element attrs children) =>
      if q attrs then nodeUnder q children (j :: rest) else none
    | _ => none

/-- An element of a `Page` as a node of the tree: an element that is neither a `title`
nor the `head` element and holds its text and nothing else. -/
def embedElement (el : Element) : DomNode :=
  DomNode.element
    { elemId := el.elemId
      isTitle := false
      isHead := false
      isMetaDescription := el.isMetaDescription
      dataI18n := el.dataI18n
      dataI18nPlaceholder := el.dataI18nPlaceholder
      dataI18nTitle := el.dataI18nTitle
      placeholder := el.placeholder
      title := el.title
      content := el.content
      value := el.value }
    (textNodes el.textContent)

/-- A `Page` as a tree: a `title` element that holds the page title, then the elements,
none inside another. -/
def embedPage (page : Page) : List DomNode :=
  DomNode.element newTitleData (textNodes page.title) :: page.elements.map embedElement

/-! ## Cookie strings -/

/-- One `name=value` entry of a cookie string, with the spaces that precede it. -/
structure CookieEntry where
  leadingSpaces : Nat
  name : String
  value : String
deriving DecidableEq

/-- The characters of an entry: its leading spaces, then `name=value`. -/
def CookieEntry.chars (e : CookieEntry) : List Char :=
  List.replicate e.leadingSpaces ' ' ++ (e.name.data ++ '=' :: e.value.data)

/-- The pieces, with `sep` between neighbours. -/
def joinWith (sep : Char) : List (List Char) → List Char
  | [] => []
  | [a] => a
  | a :: b :: rest => a ++ sep :: joinWith sep (b :: rest)

/-- The cookie string made of the entries, separated by `;`. -/
def renderCookies (entries : List CookieEntry) : String :=
  String.mk (joinWith ';' (entries.map CookieEntry.chars))

/-! ## Example data -/

/-- The document of the specification's lookup example. -/
def helloDoc : Doc :=
  [("a", JSValue.object [("b", JSValue.string "Hello")])]

/-- A network that serves the English and the German document. -/
def englishGermanEnv : Env where
  fetch := fun _ url =>
    if url = "/locales/en.json" then FetchResult.ok enDoc
    else if url = "/locales/de.json" then FetchResult.ok deDoc
    else FetchResult.notOk

/-- The page after a request for German on `selectorPage` that fell back to English. -/
def fallbackPage : Page where
  elements :=
    [{ blankElement with elemId := some "language-selector", value := "de" },
     { blankElement with elemId := some "current-lang", textContent := "English" },
     { blankElement with dataI18n := some "hero.title", textContent := "Welcome" }]
  title := "FleetKeeper"

/-- The data of an element without attributes. -/
def blankData : ElementData where
  elemId := none
  isTitle := false
  isHead := false
  isMetaDescription := false
  dataI18n := none
  dataI18nPlaceholder := none
  dataI18nTitle := none
  placeholder := ""
  title := ""
  content := ""
  value := ""

/-- A document with an empty string leaf. -/
def landingDoc : Doc :=
  [("hero", JSValue.object [("title", JSValue.string "Welcome"),
                            ("subtitle", JSValue.string "")]),
   ("nav", JSValue.object [("home", JSValue.string "Home")]),
   ("meta", JSValue.object [("title", JSValue.string "FleetKeeper"),
                            ("description", JSValue.string "Fleet management")])]

/-- A page: `html` with a `head` (title, description) and a `body` that holds a
paragraph annotated `hero.subtitle`, a block annotated `hero.missing` around a link
annotated `nav.home`, a heading annotated `hero.title` around an emphasis, and a search
field annotated for its placeholder. -/
def landingDom : List DomNode :=
  [DomNode.element blankData
    [DomNode.element { blankData with isHead := true }
      [DomNode.element { blankData with isTitle := true } [DomNode.text "Old title"],
       DomNode.element { blankData with isMetaDescription := true,
                                        content := "Old description" } []],
     DomNode.element blankData
      [DomNode.element { blankData with dataI18n := some "hero.subtitle" }
        [DomNode.text "Old text"],
       DomNode.element { blankData with dataI18n := some "hero.missing" }
        [DomNode.text "Hello ",
         DomNode.element { blankData with dataI18n := some "nav.home" } [DomNode.text "x"]],
       DomNode.element { blankData with dataI18n := some "hero.title" }
        [DomNode.element { blankData with dataI18nTitle := some "nav.home" }
          [DomNode.text "old"]],
       DomNode.element { blankData with dataI18nPlaceholder := some "nav.home",
                                        placeholder := "Search" } []]]]

/-- The `textContent` of the node at a path, `none` when there is no node. -/
def textContentAt (dom : List DomNode) (path : List Nat) : Option String :=
  (nodeAt dom path).map textContent

/-- The data of the element at a path, `none` when there is no element. -/
def dataAt (dom : List DomNode) (path : List Nat) : Option ElementData :=
  match nodeAt dom path with
  | some (DomNode.element attrs _) => some attrs
  | _ => none

/-- A page without a `title` element: `html` with a `head` that holds the description,
and an empty `body`. -/
def untitledDom : List DomNode :=
  [DomNode.element blankData
    [DomNode.element { blankData with isHead := true }
      [DomNode.element { blankData with isMetaDescription := true,
                                        content := "Old description" } []],
     DomNode.element blankData []]]

/-- A cookie string with three entries, one of them the consent choice. -/
def consentCookies : List CookieEntry :=
  [{ leadingSpaces := 0, name := "theme", value := "dark" },
   { leadingSpaces := 1, name := "cookie_consent", value := "all" },
   { leadingSpaces := 2, name := "cookie_consent_seen", value := "1" }]

/-- An entry whose name begins with a space. -/
def spacedNameCookies : List CookieEntry :=
  [{ leadingSpaces := 0, name := " a", value := "1" }]

/-- Two consent entries, the first with an empty value. -/
def shadowedConsentCookies : List CookieEntry :=
  [{ leadingSpaces := 0, name := "cookie_consent", value := "" },
   { leadingSpaces := 1, name := "cookie_consent", value := "all" }]

/-! ## Reachable states -/

/-- The states the module can be in: the state at load, and what the operations of the
language system make of a reachable state under any network, runtime and arguments;
other scripts and the user may rewrite the stored entry and the page at any time. -/
inductive Reachable : State → Prop where
  | start (page : Page) (stored : Option String) (htmlLang : String) :
      Reachable (initialState page stored htmlLang)
  | initLanguage (env : Env) (host : Host) (urlLang navigatorLanguage : Option String)
      (st : State) : Reachable st → Reachable (initLanguage env host urlLang navigatorLanguage st)
  | changeLanguage (env : Env) (host : Host) (lang : String) (st : State) :
      Reachable st → Reachable (changeLanguage env host lang st)
  | loadTranslations (env : Env) (lang : String) (st : State) :
      Reachable st → Reachable (loadTranslations env lang st)
  | applyTranslations (host : Host) (st : State) :
      Reachable st → Reachable (applyTranslations host st)
  | updateLanguageSelector (host : Host) (st : State) :
      Reachable st → Reachable (updateLanguageSelector host st)
  | outside (stored : Option String) (page : Page) (st : State) :
      Reachable st → Reachable { st with storedLang := stored, page := page }

/-! ## Lemmas -/

theorem head_splitChars (sep : Char) (l : List Char) :
    (splitChars sep l).head? = some (l.takeWhile fun c => c != sep) := by
  induction l with
  | nil => rfl
  | cons c cs ih =>
    by_cases h : c = sep
    · simp [splitChars, h]
    · cases hs : splitChars sep cs with
      | nil => simp [hs] at ih
      | cons s ss =>
        simp [hs] at ih
        simp [splitChars, h, hs, ih]

theorem browserPrimarySubtag_eq (l : Option String) :
    browserPrimarySubtag l = l.map primarySubtag := by
  cases l with
  | none => rfl
  | some s =>
    simp [browserPrimarySubtag, split, primarySubtag, List.head?_map, head_splitChars]

theorem isSupportedCandidate_iff (v : Option String) :
    isSupportedCandidate v = true ↔ ∃ c, v = some c ∧ c ∈ SUPPORTED_LANGUAGES := by
  cases v with
  | none => simp [isSupportedCandidate]
  | some s =>
    have hne : s ∈ SUPPORTED_LANGUAGES → s ≠ "" := by
      rintro h rfl
      revert h
      decide
    simp only [isSupportedCandidate, Bool.and_eq_true, List.contains, List.elem_iff,
      Option.some.injEq, exists_eq_left', bne_iff_ne, ne_eq]
    exact ⟨fun h => h.2, fun h => ⟨hne h, h⟩⟩

theorem resolveLanguage_eq_step (u : Option String) (later : String) :
    (if isSupportedCandidate u then u.getD DEFAULT_LANGUAGE else later) =
      supportedOrElse u later := by
  cases u with
  | none => simp [isSupportedCandidate, supportedOrElse]
  | some c =>
    by_cases h : c ∈ SUPPORTED_LANGUAGES
    · have : isSupportedCandidate (some c) = true := (isSupportedCandidate_iff _).2 ⟨c, rfl, h⟩
      simp [this, supportedOrElse, h]
    · have : ¬ isSupportedCandidate (some c) = true := by
        rw [isSupportedCandidate_iff]
        rintro ⟨c', hc, hm⟩
        cases hc
        exact h hm
      simp [this, supportedOrElse, h]

theorem resolveLanguage_eq_spec (urlLang stored locale : Option String) :
    resolveLanguage urlLang stored (browserPrimarySubtag locale) =
      specResolvedLanguage urlLang stored locale := by
  unfold resolveLanguage specResolvedLanguage
  rw [resolveLanguage_eq_step, resolveLanguage_eq_step, resolveLanguage_eq_step,
    browserPrimarySubtag_eq]
  rfl

theorem supportedOrElse_mem (u : Option String) (later : String)
    (h : later ∈ SUPPORTED_LANGUAGES) : supportedOrElse u later ∈ SUPPORTED_LANGUAGES := by
  cases u with
  | none => exact h
  | some c =>
    unfold supportedOrElse
    by_cases hc : c ∈ SUPPORTED_LANGUAGES <;> simp [hc, h]

theorem loadTranslations_default (env : Env) (st : State) :
    loadTranslations env DEFAULT_LANGUAGE st =
      match env.fetch st.fetchLog.length (localeUrl DEFAULT_LANGUAGE) with
      | FetchResult.ok doc =>
        { st with fetchLog := st.fetchLog ++ [localeUrl DEFAULT_LANGUAGE],
                  currentTranslations := doc, storedLang := some DEFAULT_LANGUAGE,
                  htmlLang := DEFAULT_LANGUAGE }
      | _ => { st with fetchLog := st.fetchLog ++ [localeUrl DEFAULT_LANGUAGE] } := by
  rw [loadTranslations]
  cases env.fetch st.fetchLog.length (localeUrl DEFAULT_LANGUAGE) <;> simp

theorem loadTranslations_failed (env : Env) (lang : String) (st : State)
    (h : (env.fetch st.fetchLog.length (localeUrl lang)).failed = true) :
    loadTranslations env lang st =
      if lang ≠ DEFAULT_LANGUAGE then
        loadTranslations env DEFAULT_LANGUAGE { st with fetchLog := st.fetchLog ++ [localeUrl lang] }
      else { st with fetchLog := st.fetchLog ++ [localeUrl lang] } := by
  rw [loadTranslations]
  cases hf : env.fetch st.fetchLog.length (localeUrl lang) <;>
    simp_all [FetchResult.failed]

theorem loadTranslations_ok (env : Env) (lang : String) (st : State) (doc : Doc)
    (h : env.fetch st.fetchLog.length (localeUrl lang) = FetchResult.ok doc) :
    loadTranslations env lang st =
      { st with fetchLog := st.fetchLog ++ [localeUrl lang], currentTranslations := doc,
                storedLang := some lang, htmlLang := lang } := by
  rw [loadTranslations]
  simp [h]

theorem loadTranslations_currentLang (env : Env) (lang : String) (st : State) :
    (loadTranslations env lang st).currentLang = st.currentLang := by
  have hd : ∀ s : State, (loadTranslations env DEFAULT_LANGUAGE s).currentLang = s.currentLang := by
    intro s
    rw [loadTranslations_default]
    cases env.fetch s.fetchLog.length (localeUrl DEFAULT_LANGUAGE) <;> rfl
  cases hf : env.fetch st.fetchLog.length (localeUrl lang) with
  | ok doc => rw [loadTranslations_ok env lang st doc hf]
  | networkError =>
    rw [loadTranslations_failed env lang st (by simp [hf, FetchResult.failed])]
    split
    · rw [hd]
    · rfl
  | notOk =>
    rw [loadTranslations_failed env lang st (by simp [hf, FetchResult.failed])]
    split
    · rw [hd]
    · rfl
  | malformed =>
    rw [loadTranslations_failed env lang st (by simp [hf, FetchResult.failed])]
    split
    · rw [hd]
    · rfl

theorem applyTranslations_currentLang (host : Host) (st : State) :
    (applyTranslations host st).currentLang = st.currentLang := by
  unfold applyTranslations
  split <;> rfl

theorem updateLanguageSelector_currentLang (host : Host) (st : State) :
    (updateLanguageSelector host st).currentLang = st.currentLang := rfl

theorem initLanguage_currentLang (env : Env) (host : Host)
    (urlLang navigatorLanguage : Option String) (st : State) :
    (initLanguage env host urlLang navigatorLanguage st).currentLang =
      resolveLanguage urlLang st.storedLang (browserPrimarySubtag navigatorLanguage) := by
  unfold initLanguage
  simp only [updateLanguageSelector_currentLang, applyTranslations_currentLang,
    loadTranslations_currentLang]

theorem specResolvedLanguage_mem (urlLang stored locale : Option String) :
    specResolvedLanguage urlLang stored locale ∈ SUPPORTED_LANGUAGES :=
  supportedOrElse_mem _ _ (supportedOrElse_mem _ _ (supportedOrElse_mem _ _ (by decide)))

theorem map_updateFirst (g : Element → Element) (p : Element → Bool) (f : Element → Element)
    (hp : ∀ el, p (g el) = p el) (hc : ∀ el, g (f el) = f (g el)) (l : List Element) :
    (updateFirst p f l).map g = updateFirst p f (l.map g) := by
  induction l with
  | nil => rfl
  | cons el els ih =>
    by_cases h : p el = true
    · simp [updateFirst, h, hp, hc]
    · simp [updateFirst, h, hp, ih]

theorem updateFirst_idem (p : Element → Bool) (f : Element → Element)
    (hp : ∀ el, p (f el) = p el) (hf : ∀ el, f (f el) = f el) (l : List Element) :
    updateFirst p f (updateFirst p f l) = updateFirst p f l := by
  induction l with
  | nil => rfl
  | cons el els ih =>
    by_cases h : p el = true
    · simp [updateFirst, h, hp, hf]
    · simp [updateFirst, h, ih]

theorem rendered_idem (host : Host) (doc : Doc) (a : Option String) (old : String) :
    rendered host doc a (rendered host doc a old) = rendered host doc a old := by
  cases a with
  | none => rfl
  | some key =>
    simp only [rendered]
    split_ifs <;> rfl

theorem translateText_eq (host : Host) (doc : Doc) (el : Element) :
    translateText host doc el =
      { el with textContent := rendered host doc el.dataI18n el.textContent } := by
  rcases el with ⟨i, m, d1, d2, d3, t, ph, ti, c, v⟩
  cases d1 with
  | none => rfl
  | some key =>
    simp only [translateText, rendered]
    split_ifs <;> rfl

theorem translatePlaceholder_eq (host : Host) (doc : Doc) (el : Element) :
    translatePlaceholder host doc el =
      { el with placeholder := rendered host doc el.dataI18nPlaceholder el.placeholder } := by
  rcases el with ⟨i, m, d1, d2, d3, t, ph, ti, c, v⟩
  cases d2 with
  | none => rfl
  | some key =>
    simp only [translatePlaceholder, rendered]
    split_ifs <;> rfl

theorem translateTitle_eq (host : Host) (doc : Doc) (el : Element) :
    translateTitle host doc el =
      { el with title := rendered host doc el.dataI18nTitle el.title } := by
  rcases el with ⟨i, m, d1, d2, d3, t, ph, ti, c, v⟩
  cases d3 with
  | none => rfl
  | some key =>
    simp only [translateTitle, rendered]
    split_ifs <;> rfl

theorem translate_passes (host : Host) (doc : Doc) (els : List Element) :
    ((els.map (translateText host doc)).map (translatePlaceholder host doc)).map
      (translateTitle host doc) = els.map (translateAll host doc) := by
  simp only [List.map_map]
  congr 1
  funext el
  simp only [Function.comp, translateText_eq, translatePlaceholder_eq, translateTitle_eq,
    translateAll]

theorem translateAll_idem (host : Host) (doc : Doc) (el : Element) :
    translateAll host doc (translateAll host doc el) = translateAll host doc el := by
  simp only [translateAll, rendered_idem]

theorem translate_meta_idem (host : Host) (doc : Doc) (text : String) (l : List Element) :
    updateFirst (fun el => el.isMetaDescription) (fun el => { el with content := text })
      (List.map (translateAll host doc)
        (updateFirst (fun el => el.isMetaDescription) (fun el => { el with content := text })
          (List.map (translateAll host doc) l))) =
    updateFirst (fun el => el.isMetaDescription) (fun el => { el with content := text })
      (List.map (translateAll host doc) l) := by
  rw [map_updateFirst (translateAll host doc) (fun el => el.isMetaDescription)
      (fun el => { el with content := text }) (fun _ => rfl) (fun _ => rfl),
    updateFirst_idem (fun el => el.isMetaDescription)
      (fun el => { el with content := text }) (fun _ => rfl) (fun _ => rfl), List.map_map]
  congr 2
  funext el
  exact translateAll_idem host doc el

theorem eraseDups_loop_length {α : Type} [BEq α] (as bs : List α) :
    bs.length ≤ (List.eraseDups.loop as bs).length := by
  induction as generalizing bs with
  | nil => simp [List.eraseDups.loop]
  | cons a as ih =>
    unfold List.eraseDups.loop
    split
    · exact ih bs
    · exact Nat.le_trans (Nat.le_succ _) (ih (a :: bs))

theorem objectKeys_length_eq_zero (doc : Doc) :
    (objectKeys doc).length = 0 ↔ doc = [] := by
  constructor
  · intro h
    cases doc with
    | nil => rfl
    | cons kv rest =>
      exfalso
      have hb := eraseDups_loop_length (List.map Prod.fst rest) [kv.1]
      have he : objectKeys (kv :: rest) = List.eraseDups.loop (List.map Prod.fst rest) [kv.1] := by
        simp [objectKeys, List.eraseDups, List.eraseDups.loop]
      rw [he] at h
      simp at hb
      omega
  · rintro rfl
    rfl

theorem foldl_of_descend (host : Host) (segments : List String) (v r : JSValue)
    (h : descend segments v = some r) :
    segments.foldl (fun obj k => if truthy host obj then getProp host obj k else obj) v = r := by
  induction segments generalizing v with
  | nil =>
    simp [descend] at h
    simpa using h
  | cons k ks ih =>
    cases v with
    | object props =>
      cases hl : props.lookup k with
      | none => simp [descend, hl] at h
      | some v' =>
        simp only [descend, hl] at h
        simp only [List.foldl, truthy, if_true, getProp, hl]
        exact ih v' h
    | undefined => simp [descend] at h
    | null => simp [descend] at h
    | number n => simp [descend] at h
    | string s => simp [descend] at h
    | builtin t => simp [descend] at h

theorem applyTranslations_preserves (host : Host) (st : State) :
    (applyTranslations host st).currentTranslations = st.currentTranslations ∧
    (applyTranslations host st).storedLang = st.storedLang ∧
    (applyTranslations host st).htmlLang = st.htmlLang ∧
    (applyTranslations host st).fetchLog = st.fetchLog := by
  unfold applyTranslations
  split <;> exact ⟨rfl, rfl, rfl, rfl⟩

/-! ### Cookie strings -/

theorem splitChars_ne_nil (sep : Char) (l : List Char) : splitChars sep l ≠ [] := by
  induction l with
  | nil => simp [splitChars]
  | cons c cs ih =>
    unfold splitChars
    split
    · simp
    · split <;> simp

theorem splitChars_append_sep (sep : Char) (a rest : List Char) (h : sep ∉ a) :
    splitChars sep (a ++ sep :: rest) = a :: splitChars sep rest := by
  induction a with
  | nil => simp [splitChars]
  | cons c a ih =>
    have hc : c ≠ sep := fun e => h (by simp [e])
    have ha : sep ∉ a := fun e => h (by simp [e])
    simp [splitChars, hc, ih ha]

theorem splitChars_no_sep (sep : Char) (a : List Char) (h : sep ∉ a) :
    splitChars sep a = [a] := by
  induction a with
  | nil => rfl
  | cons c a ih =>
    have hc : c ≠ sep := fun e => h (by simp [e])
    have ha : sep ∉ a := fun e => h (by simp [e])
    simp [splitChars, hc, ih ha]

theorem splitChars_joinWith (sep : Char) (pieces : List (List Char))
    (h : ∀ p ∈ pieces, sep ∉ p) (hne : pieces ≠ []) :
    splitChars sep (joinWith sep pieces) = pieces := by
  induction pieces with
  | nil => exact absurd rfl hne
  | cons a rest ih =>
    cases rest with
    | nil => exact splitChars_no_sep sep a (h a (by simp))
    | cons b rest =>
      rw [joinWith, splitChars_append_sep sep a _ (h a (by simp)),
        ih (fun p hp => h p (by simp [hp])) (by simp)]

theorem stripLeadingSpaces_replicate (n fuel : Nat) (body : List Char) (hf : n ≤ fuel)
    (hb : body.head? ≠ some ' ') :
    stripLeadingSpaces fuel (String.mk (List.replicate n ' ' ++ body)) = String.mk body := by
  induction n generalizing fuel with
  | zero =>
    cases fuel with
    | zero => rfl
    | succ fuel =>
      have : charAt0Is (String.mk body) ' ' = false := by
        cases body with
        | nil => rfl
        | cons c cs =>
          simp only [charAt0Is]
          simp at hb
          simpa using hb
      simp [stripLeadingSpaces, this]
  | succ n ih =>
    cases fuel with
    | zero => omega
    | succ fuel =>
      have : charAt0Is (String.mk (List.replicate (n + 1) ' ' ++ body)) ' ' = true := by
        simp [charAt0Is, List.replicate_succ]
      rw [stripLeadingSpaces, if_pos this]
      have hs : substringFrom (String.mk (List.replicate (n + 1) ' ' ++ body)) 1 =
          String.mk (List.replicate n ' ' ++ body) := by
        simp [substringFrom, List.replicate_succ]
      rw [hs]
      exact ih fuel (by omega)

theorem indexOfChars_bound (pat s : List Char) (i : Nat) :
    indexOfChars pat s i = -1 ∨ (i : Int) ≤ indexOfChars pat s i := by
  induction s generalizing i with
  | nil =>
    unfold indexOfChars
    split <;> simp
  | cons c cs ih =>
    unfold indexOfChars
    split
    · simp
    · rcases ih (i + 1) with h | h
      · exact Or.inl h
      · right
        omega

theorem indexOfChars_eq_zero (pat s : List Char) :
    indexOfChars pat s 0 = 0 ↔ pat.isPrefixOf s = true := by
  cases s with
  | nil =>
    unfold indexOfChars
    split <;> simp_all
  | cons c cs =>
    unfold indexOfChars
    split
    · simp_all
    · rename_i h
      constructor
      · intro h0
        rcases indexOfChars_bound pat cs (0 + 1) with hb | hb <;> omega
      · intro hp
        exact absurd hp h

theorem isPrefixOf_name (q n v : List Char) (hq : '=' ∉ q) (hn : '=' ∉ n) :
    (q ++ ['=']).isPrefixOf (n ++ '=' :: v) = true ↔ q = n := by
  induction q generalizing n with
  | nil =>
    cases n with
    | nil => simp [List.isPrefixOf]
    | cons c n =>
      have hc : c ≠ '=' := fun e => hn (by simp [e])
      simp [List.isPrefixOf, hc]
      exact fun e => hc e.symm
  | cons d q ih =>
    have hd : d ≠ '=' := fun e => hq (by simp [e])
    cases n with
    | nil =>
      simp [List.isPrefixOf, hd]
    | cons c n =>
      have hq2 : '=' ∉ q := fun e => hq (by simp [e])
      have hn2 : '=' ∉ n := fun e => hn (by simp [e])
      have := ih n hq2 hn2
      simp only [List.cons_append, List.isPrefixOf, Bool.and_eq_true, beq_iff_eq, List.cons.injEq]
      exact and_congr_right fun _ => this

theorem drop_past_sep (a b : List Char) (c : Char) :
    (a ++ c :: b).drop (a.length + 1) = b := by
  induction a with
  | nil => rfl
  | cons d a ih => simp [ih]

theorem data_append_eq (q : String) : (q ++ "=").data = q.data ++ ['='] := by
  rw [String.data_append]

theorem length_append_eq (q : String) : (q ++ "=").length = q.data.length + 1 := by
  show (q ++ "=").data.length = q.data.length + 1
  rw [data_append_eq]
  simp

theorem strip_entry (e : CookieEntry) (hs : e.name.data.head? ≠ some ' ') :
    stripLeadingSpaces (String.mk e.chars).length (String.mk e.chars) =
      String.mk (e.name.data ++ '=' :: e.value.data) := by
  have hbody : (e.name.data ++ '=' :: e.value.data).head? ≠ some ' ' := by
    cases hd : e.name.data with
    | nil => simp
    | cons c cs => simpa [hd] using hs
  apply stripLeadingSpaces_replicate _ _ _ _ hbody
  show e.leadingSpaces ≤ e.chars.length
  unfold CookieEntry.chars
  rw [List.length_append, List.length_replicate]
  omega

theorem indexOf_entry (q : String) (e : CookieEntry)
    (hq : '=' ∉ q.data) (hn : '=' ∉ e.name.data) :
    indexOf (String.mk (e.name.data ++ '=' :: e.value.data)) (q ++ "=") = 0 ↔ e.name = q := by
  unfold indexOf
  rw [indexOfChars_eq_zero, data_append_eq]
  show (q.data ++ ['=']).isPrefixOf (e.name.data ++ '=' :: e.value.data) = true ↔ _
  rw [isPrefixOf_name _ _ _ hq hn]
  constructor
  · intro h
    exact (String.ext h).symm
  · intro h
    rw [h]

theorem getCookieLoop_miss (q : String) (e : CookieEntry) (rest : List String)
    (hq : '=' ∉ q.data) (hn : '=' ∉ e.name.data) (hs : e.name.data.head? ≠ some ' ')
    (hne : e.name ≠ q) :
    getCookieLoop (q ++ "=") (String.mk e.chars :: rest) = getCookieLoop (q ++ "=") rest := by
  rw [getCookieLoop]
  simp only [strip_entry e hs]
  rw [if_neg (fun h => hne ((indexOf_entry q e hq hn).1 h))]

theorem getCookieLoop_hit (q : String) (e : CookieEntry) (rest : List String)
    (hq : '=' ∉ q.data) (hn : '=' ∉ e.name.data) (hs : e.name.data.head? ≠ some ' ')
    (he : e.name = q) :
    getCookieLoop (q ++ "=") (String.mk e.chars :: rest) = some e.value := by
  rw [getCookieLoop]
  simp only [strip_entry e hs]
  rw [if_pos ((indexOf_entry q e hq hn).2 he)]
  subst he
  unfold substringFrom
  rw [length_append_eq]
  show some (String.mk ((e.name.data ++ '=' :: e.value.data).drop (e.name.data.length + 1))) = _
  rw [drop_past_sep]

theorem getCookieLoop_entries (q : String) (entries : List CookieEntry) (tail : List String)
    (hq : '=' ∉ q.data)
    (hn : ∀ e ∈ entries, '=' ∉ e.name.data ∧ e.name.data.head? ≠ some ' ') :
    getCookieLoop (q ++ "=") (entries.map (fun e => String.mk e.chars) ++ tail) =
      match entries.find? (fun e => e.name == q) with
      | some e => some e.value
      | none => getCookieLoop (q ++ "=") tail := by
  induction entries with
  | nil => rfl
  | cons e rest ih =>
    have he := hn e (by simp)
    have hrest := ih (fun e' h' => hn e' (by simp [h']))
    by_cases hname : e.name = q
    · have hb : (e.name == q) = true := by simpa using hname
      simp only [List.map_cons, List.cons_append]
      rw [getCookieLoop_hit q e _ hq he.1 he.2 hname]
      simp only [List.find?, hb]
    · have hb : (e.name == q) = false := by simpa using hname
      simp only [List.map_cons, List.cons_append]
      rw [getCookieLoop_miss q e _ hq he.1 he.2 hname, hrest]
      simp only [List.find?, hb]

theorem getCookieLoop_empty (q : String) : getCookieLoop (q ++ "=") [""] = none := by
  rw [getCookieLoop]
  have h : indexOf (stripLeadingSpaces "".length "") (q ++ "=") ≠ 0 := by
    show indexOfChars (q ++ "=").data [] 0 ≠ 0
    rw [data_append_eq]
    unfold indexOfChars
    cases q.data <;> simp [List.isPrefixOf]
  simp only [h, if_false]
  rfl

theorem split_renderCookies (entries : List CookieEntry) (hne : entries ≠ [])
    (h : ∀ e ∈ entries, ';' ∉ e.name.data ∧ ';' ∉ e.value.data) :
    split (renderCookies entries) ';' = entries.map (fun e => String.mk e.chars) := by
  simp only [split, renderCookies]
  rw [splitChars_joinWith]
  · simp [List.map_map, Function.comp]
  · intro p hp
    simp only [List.mem_map] at hp
    obtain ⟨e', he', rfl⟩ := hp
    have := h e' he'
    simp [CookieEntry.chars, List.mem_replicate, this.1, this.2]
  · simpa using hne

theorem getCookie_renderCookies (entries : List CookieEntry) (q : String)
    (hq : '=' ∉ q.data)
    (hn : ∀ e ∈ entries, '=' ∉ e.name.data ∧ ';' ∉ e.name.data ∧ e.name.data.head? ≠ some ' ')
    (hv : ∀ e ∈ entries, ';' ∉ e.value.data) :
    getCookie (renderCookies entries) q =
      (entries.find? (fun e => e.name == q)).map CookieEntry.value := by
  unfold getCookie
  simp only []
  by_cases hemp : entries = []
  · subst hemp
    exact getCookieLoop_empty q
  · rw [split_renderCookies entries hemp (fun e he => ⟨(hn e he).2.1, hv e he⟩)]
    have := getCookieLoop_entries q entries [] hq (fun e he => ⟨(hn e he).1, (hn e he).2.2⟩)
    rw [List.append_nil] at this
    rw [this]
    cases entries.find? (fun e => e.name == q) <;> rfl

/-! ### The page as a tree -/

theorem translateTextNodes_eq_map (host : Host) (doc : Doc) :
    ∀ ns, translateTextNodes host doc ns = ns.map (translateTextNode host doc)
  | [] => rfl
  | n :: ns => by
    rw [translateTextNodes, translateTextNodes_eq_map host doc ns]
    rfl

theorem mapElementsOfList_eq_map (g : ElementData → ElementData) :
    ∀ ns, mapElementsOfList g ns = ns.map (mapElements g)
  | [] => rfl
  | n :: ns => by
    rw [mapElementsOfList, mapElementsOfList_eq_map g ns]
    rfl

theorem foldl_undefined (host : Host) (segments : List String) :
    segments.foldl (fun obj k => if truthy host obj then getProp host obj k else obj)
      JSValue.undefined = JSValue.undefined := by
  induction segments with
  | nil => rfl
  | cons k ks ih => simpa [List.foldl, truthy] using ih

theorem foldl_of_missing (host : Host) (segments : List String) (v : JSValue)
    (h : missingInMapping host segments v = true) :
    segments.foldl (fun obj k => if truthy host obj then getProp host obj k else obj) v =
      JSValue.undefined := by
  induction segments generalizing v with
  | nil => simp [missingInMapping] at h
  | cons k ks ih =>
    cases v with
    | object props =>
      cases hl : props.lookup k with
      | some v' =>
        simp only [missingInMapping, hl] at h
        simp only [List.foldl, truthy, if_true, getProp, hl]
        exact ih v' h
      | none =>
        simp only [missingInMapping, hl] at h
        have hu : host.inherited (JSValue.object props) k = JSValue.undefined := by
          cases hi : host.inherited (JSValue.object props) k <;>
            simp [hi, JSValue.isUndefined] at h
          rfl
        simp only [List.foldl, truthy, if_true, getProp, hl, hu]
        exact foldl_undefined host ks
    | undefined => simp [missingInMapping] at h
    | null => simp [missingInMapping] at h
    | number n => simp [missingInMapping] at h
    | string s => simp [missingInMapping] at h
    | builtin t => simp [missingInMapping] at h

theorem keepsContent_falsy (host : Host) (doc : Doc) (key : String)
    (h : keepsContent host doc (some key) = true) :
    truthy host (getNestedTranslation host doc key) = false := by
  unfold keepsContent at h
  simp only [] at h
  cases hd : descend (split key '.') (JSValue.object doc) with
  | some v =>
    rw [hd] at h
    simp only [] at h
    have hv : getNestedTranslation host doc key = v :=
      foldl_of_descend host (split key '.') (JSValue.object doc) v hd
    rw [hv]
    simpa using h
  | none =>
    rw [hd] at h
    simp only [] at h
    have hv : getNestedTranslation host doc key = JSValue.undefined :=
      foldl_of_missing host (split key '.') (JSValue.object doc) h
    rw [hv]
    rfl

theorem translateTextNode_kept (host : Host) (doc : Doc) (a : ElementData) (cs : List DomNode)
    (h : keepsContent host doc a.dataI18n = true) :
    translateTextNode host doc (DomNode.element a cs) =
      DomNode.element a (translateTextNodes host doc cs) := by
  cases hk : a.dataI18n with
  | none => simp [translateTextNode, hk]
  | some key =>
    rw [hk] at h
    simp [translateTextNode, hk, keepsContent_falsy host doc key h]

theorem translateTextNode_replaced (host : Host) (doc : Doc) (a : ElementData)
    (cs : List DomNode) (key : String) (v : JSValue) (hk : a.dataI18n = some key)
    (hd : descend (split key '.') (JSValue.object doc) = some v) (hv : truthy host v = true) :
    translateTextNode host doc (DomNode.element a cs) =
      DomNode.element a (textNodes (toText host v)) := by
  have hg : getNestedTranslation host doc key = v :=
    foldl_of_descend host (split key '.') (JSValue.object doc) v hd
  simp [translateTextNode, hk, hg, hv]

theorem nodeUnder_singleton (q : ElementData → Bool) (ns : List DomNode) (i : Nat) :
    nodeUnder q ns [i] = ns[i]? := by
  cases ns <;> rfl

theorem nodeUnder_cons (q : ElementData → Bool) (ns : List DomNode) (i j : Nat)
    (rest : List Nat) :
    nodeUnder q ns (i :: j :: rest) =
      match ns[i]? with
      | some (DomNode.element attrs children) =>
        if q attrs then nodeUnder q children (j :: rest) else none
      | _ => none := by
  cases ns <;> rfl

theorem nodeAt_singleton (ns : List DomNode) (i : Nat) : nodeAt ns [i] = ns[i]? := by
  cases ns <;> rfl

theorem nodeAt_cons (ns : List DomNode) (i j : Nat) (rest : List Nat) :
    nodeAt ns (i :: j :: rest) =
      match ns[i]? with
      | some (DomNode.element _ children) => nodeAt children (j :: rest)
      | _ => none := by
  cases ns <;> rfl

theorem ancestorsSatisfy_cons (q : ElementData → Bool) (ns : List DomNode) (i j : Nat)
    (rest : List Nat) :
    ancestorsSatisfy q ns (i :: j :: rest) =
      match ns[i]? with
      | some (DomNode.element attrs children) =>
        (q attrs && ancestorsSatisfy q children (j :: rest))
      | _ => true := by
  cases ns <;> rfl

theorem nodeUnder_of_nodeAt (q : ElementData → Bool) (path : List Nat) :
    ∀ (ns : List DomNode) (n : DomNode), nodeAt ns path = some n →
      ancestorsSatisfy q ns path = true → nodeUnder q ns path = some n := by
  induction path with
  | nil => intro ns n h; simp [nodeAt] at h
  | cons i rest ih =>
    intro ns n h hq
    cases rest with
    | nil =>
      rw [nodeAt_singleton] at h
      rw [nodeUnder_singleton]
      exact h
    | cons j rest =>
      rw [nodeAt_cons] at h
      rw [ancestorsSatisfy_cons] at hq
      rw [nodeUnder_cons]
      cases hi : ns[i]? with
      | none => simp [hi] at h
      | some m =>
        cases m with
        | text d => simp [hi] at h
        | element b cb =>
          simp only [hi] at h hq
          simp only [Bool.and_eq_true] at hq
          simp only [hq.1, if_true]
          exact ih cb n h hq.2

theorem nodeAt_of_nodeUnder (q : ElementData → Bool) (path : List Nat) :
    ∀ (ns : List DomNode) (n : DomNode), nodeUnder q ns path = some n →
      nodeAt ns path = some n := by
  induction path with
  | nil => intro ns n h; simp [nodeUnder] at h
  | cons i rest ih =>
    intro ns n h
    cases rest with
    | nil =>
      rw [nodeUnder_singleton] at h
      rw [nodeAt_singleton]
      exact h
    | cons j rest =>
      rw [nodeUnder_cons] at h
      rw [nodeAt_cons]
      cases hi : ns[i]? with
      | none => simp [hi] at h
      | some m =>
        cases m with
        | text d => simp [hi] at h
        | element b cb =>
          simp only [hi] at h
          by_cases hb : q b = true
          · simp only [hb, if_true] at h
            exact ih cb n h
          · simp [hb] at h

theorem nodeUnder_translateText (host : Host) (doc : Doc) (q : ElementData → Bool)
    (hq : ∀ a, q a = true → keepsContent host doc a.dataI18n = true) (path : List Nat) :
    ∀ (ns : List DomNode) (n : DomNode), nodeUnder q ns path = some n →
      nodeUnder q (translateTextNodes host doc ns) path =
        some (translateTextNode host doc n) := by
  induction path with
  | nil => intro ns n h; simp [nodeUnder] at h
  | cons i rest ih =>
    intro ns n h
    cases rest with
    | nil =>
      rw [nodeUnder_singleton] at h
      rw [nodeUnder_singleton, translateTextNodes_eq_map, List.getElem?_map, h]
      rfl
    | cons j rest =>
      rw [nodeUnder_cons] at h
      rw [nodeUnder_cons, translateTextNodes_eq_map, List.getElem?_map]
      cases hi : ns[i]? with
      | none => simp [hi] at h
      | some m =>
        cases m with
        | text d => simp [hi] at h
        | element b cb =>
          simp only [hi] at h
          by_cases hb : q b = true
          · simp only [hb, if_true] at h
            simp only [Option.map_some', translateTextNode_kept host doc b cb (hq b hb), hb,
              if_true]
            exact ih cb n h
          · simp [hb] at h

theorem nodeUnder_mapElements (g : ElementData → ElementData) (q : ElementData → Bool)
    (hq : ∀ a, q (g a) = q a) (path : List Nat) :
    ∀ (ns : List DomNode) (n : DomNode), nodeUnder q ns path = some n →
      nodeUnder q (mapElementsOfList g ns) path = some (mapElements g n) := by
  induction path with
  | nil => intro ns n h; simp [nodeUnder] at h
  | cons i rest ih =>
    intro ns n h
    cases rest with
    | nil =>
      rw [nodeUnder_singleton] at h
      rw [nodeUnder_singleton, mapElementsOfList_eq_map, List.getElem?_map, h]
      rfl
    | cons j rest =>
      rw [nodeUnder_cons] at h
      rw [nodeUnder_cons, mapElementsOfList_eq_map, List.getElem?_map]
      cases hi : ns[i]? with
      | none => simp [hi] at h
      | some m =>
        cases m with
        | text d => simp [hi] at h
        | element b cb =>
          simp only [hi] at h
          by_cases hb : q b = true
          · simp only [hb, if_true] at h
            simp only [Option.map_some', mapElements, hq, hb, if_true]
            exact ih cb n h
          · simp [hb] at h

theorem updateFirstElement_element (p : ElementData → Bool)
    (f : ElementData → List DomNode → DomNode) (a : ElementData) (cs : List DomNode)
    (n' : DomNode) (h : updateFirstElement p f (DomNode.element a cs) = some n') :
    (p a = true ∧ n' = f a cs) ∨
    (p a = false ∧ ∃ cs', updateFirstElementOfList p f cs = some cs' ∧
      n' = DomNode.element a cs') := by
  rw [updateFirstElement] at h
  by_cases hp : p a = true
  · rw [if_pos hp] at h
    exact Or.inl ⟨hp, (Option.some.inj h).symm⟩
  · rw [if_neg hp] at h
    cases hc : updateFirstElementOfList p f cs with
    | none => simp [hc] at h
    | some cs' =>
      simp only [hc] at h
      exact Or.inr ⟨by simpa using hp, cs', rfl, (Option.some.inj h).symm⟩

theorem updateFirstElementOfList_getElem? (p : ElementData → Bool)
    (f : ElementData → List DomNode → DomNode) :
    ∀ (ns ns' : List DomNode), updateFirstElementOfList p f ns = some ns' →
      ∃ k n n', ns[k]? = some n ∧ updateFirstElement p f n = some n' ∧
        ns'[k]? = some n' ∧ ∀ i : Nat, i ≠ k → ns'[i]? = ns[i]?
  | [], ns', h => by simp [updateFirstElementOfList] at h
  | n :: ns, ns', h => by
    rw [updateFirstElementOfList] at h
    cases hn : updateFirstElement p f n with
    | some n' =>
      simp only [hn] at h
      cases Option.some.inj h
      refine ⟨0, n, n', by simp, hn, by simp, ?_⟩
      intro i hi
      cases i with
      | zero => exact absurd rfl hi
      | succ i => simp
    | none =>
      simp only [hn] at h
      cases hr : updateFirstElementOfList p f ns with
      | none => simp [hr] at h
      | some ns'' =>
        simp only [hr] at h
        cases Option.some.inj h
        obtain ⟨k, m, m', h1, h2, h3, h4⟩ := updateFirstElementOfList_getElem? p f ns ns'' hr
        refine ⟨k + 1, m, m', by simpa using h1, h2, by simpa using h3, ?_⟩
        intro i hi
        cases i with
        | zero => simp
        | succ i =>
          have := h4 i (fun e => hi (by rw [e]))
          simpa using this

theorem nodeUnder_append (q : ElementData → Bool) (extra : List DomNode) (path : List Nat)
    (ns : List DomNode) (n : DomNode) (h : nodeUnder q ns path = some n) :
    nodeUnder q (ns ++ extra) path = some n := by
  cases path with
  | nil => simp [nodeUnder] at h
  | cons i rest =>
    cases rest with
    | nil =>
      rw [nodeUnder_singleton] at h
      rw [nodeUnder_singleton]
      have hlt : i < ns.length := by
        by_contra hge
        rw [List.getElem?_eq_none (by omega)] at h
        cases h
      rw [List.getElem?_append_left hlt]
      exact h
    | cons j rest =>
      rw [nodeUnder_cons] at h
      rw [nodeUnder_cons]
      have hlt : i < ns.length := by
        by_contra hge
        rw [List.getElem?_eq_none (by omega)] at h
        simp at h
      rw [List.getElem?_append_left hlt]
      exact h

/-- How the node at a path fares when the first element that satisfies `p` is replaced
by `f` of it: it stays as it is, or it is the replaced element, or the replaced element
lies inside it. -/
theorem nodeUnder_updateFirst (p q : ElementData → Bool)
    (f : ElementData → List DomNode → DomNode)
    (hanc : ∀ b cb, p b = true → q b = true → ∃ b' cb', f b cb = DomNode.element b' cb' ∧
      q b' = true ∧ ∀ path n, nodeUnder q cb path = some n → nodeUnder q cb' path = some n)
    (path : List Nat) :
    ∀ (ns ns' : List DomNode) (a : ElementData) (cs : List DomNode),
      updateFirstElementOfList p f ns = some ns' →
      nodeUnder q ns path = some (DomNode.element a cs) →
      nodeUnder q ns' path = some (DomNode.element a cs) ∨
      (p a = true ∧ nodeUnder q ns' path = some (f a cs)) ∨
      (p a = false ∧ ∃ cs', updateFirstElementOfList p f cs = some cs' ∧
        nodeUnder q ns' path = some (DomNode.element a cs')) := by
  induction path with
  | nil => intro ns ns' a cs _ h; simp [nodeUnder] at h
  | cons i rest ih =>
    intro ns ns' a cs hu h
    obtain ⟨k, m, m', hk, hm, hk', hother⟩ := updateFirstElementOfList_getElem? p f ns ns' hu
    cases rest with
    | nil =>
      rw [nodeUnder_singleton] at h
      simp only [nodeUnder_singleton]
      by_cases hik : i = k
      · subst hik
        rw [hk] at h
        cases Option.some.inj h
        rcases updateFirstElement_element p f a cs m' hm with ⟨hp, he⟩ | ⟨hp, cs', hc, he⟩
        · exact Or.inr (Or.inl ⟨hp, by rw [hk', he]⟩)
        · exact Or.inr (Or.inr ⟨hp, cs', hc, by rw [hk', he]⟩)
      · left
        rw [hother i hik]
        exact h
    | cons j rest =>
      rw [nodeUnder_cons] at h
      simp only [nodeUnder_cons]
      by_cases hik : i = k
      · subst hik
        rw [hk] at h
        cases m with
        | text d => simp at h
        | element b cb =>
          simp only [] at h
          by_cases hb : q b = true
          · simp only [hb, if_true] at h
            rcases updateFirstElement_element p f b cb m' hm with ⟨hp, he⟩ | ⟨hp, cb', hc, he⟩
            · obtain ⟨b', cb', hf, hqb', hkeep⟩ := hanc b cb hp hb
              left
              rw [hk', he, hf]
              simp only [hqb', if_true]
              exact hkeep _ _ h
            · rw [hk', he]
              simp only [hb, if_true]
              exact ih cb cb' a cs hc h
          · simp [hb] at h
      · left
        rw [hother i hik]
        exact h

mutual
theorem updateFirstElement_none_of_forall (p : ElementData → Bool)
    (f : ElementData → List DomNode → DomNode) (r : ElementData → Bool)
    (hp : ∀ a, p a = true → r a = false) :
    ∀ n, allElements r n = true → updateFirstElement p f n = none
  | DomNode.text _, _ => rfl
  | DomNode.element a cs, h => by
    rw [allElements, Bool.and_eq_true] at h
    have hpa : ¬ p a = true := fun e => by
      have := hp a e
      rw [h.1] at this
      cases this
    rw [updateFirstElement, if_neg hpa,
      updateFirstElementOfList_none_of_forall p f r hp cs h.2]
theorem updateFirstElementOfList_none_of_forall (p : ElementData → Bool)
    (f : ElementData → List DomNode → DomNode) (r : ElementData → Bool)
    (hp : ∀ a, p a = true → r a = false) :
    ∀ ns, allElementsOfList r ns = true → updateFirstElementOfList p f ns = none
  | [], _ => rfl
  | n :: ns, h => by
    rw [allElementsOfList, Bool.and_eq_true] at h
    rw [updateFirstElementOfList, updateFirstElement_none_of_forall p f r hp n h.1,
      updateFirstElementOfList_none_of_forall p f r hp ns h.2]
end

mutual
theorem allElements_mapElements (g : ElementData → ElementData) (r : ElementData → Bool)
    (hr : ∀ a, r (g a) = r a) : ∀ n, allElements r (mapElements g n) = allElements r n
  | DomNode.text _ => rfl
  | DomNode.element a cs => by
    rw [mapElements, allElements, allElements, hr, allElementsOfList_mapElements g r hr cs]
theorem allElementsOfList_mapElements (g : ElementData → ElementData)
    (r : ElementData → Bool) (hr : ∀ a, r (g a) = r a) :
    ∀ ns, allElementsOfList r (mapElementsOfList g ns) = allElementsOfList r ns
  | [] => rfl
  | n :: ns => by
    rw [mapElementsOfList, allElementsOfList, allElementsOfList,
      allElements_mapElements g r hr n, allElementsOfList_mapElements g r hr ns]
end

mutual
theorem translateTextNode_plain (host : Host) (doc : Doc) :
    ∀ n, allElements plainData n = true → translateTextNode host doc n = n
  | DomNode.text _, _ => rfl
  | DomNode.element a cs, h => by
    rw [allElements, Bool.and_eq_true] at h
    have hnone : a.dataI18n = none := by
      have h1 := h.1
      simp only [plainData, Bool.and_eq_true, Option.isNone_iff_eq_none] at h1
      exact h1.1.1
    rw [translateTextNode]
    simp only [hnone]
    rw [translateTextNodes_plain host doc cs h.2]
theorem translateTextNodes_plain (host : Host) (doc : Doc) :
    ∀ ns, allElementsOfList plainData ns = true → translateTextNodes host doc ns = ns
  | [], _ => rfl
  | n :: ns, h => by
    rw [allElementsOfList, Bool.and_eq_true] at h
    rw [translateTextNodes, translateTextNode_plain host doc n h.1,
      translateTextNodes_plain host doc ns h.2]
end

mutual
theorem textContent_mapElements (g : ElementData → ElementData) :
    ∀ n, textContent (mapElements g n) = textContent n
  | DomNode.text _ => rfl
  | DomNode.element a cs => by
    rw [mapElements, textContent, textContent, textContentOfList_mapElements g cs]
theorem textContentOfList_mapElements (g : ElementData → ElementData) :
    ∀ ns, textContentOfList (mapElementsOfList g ns) = textContentOfList ns
  | [] => rfl
  | n :: ns => by
    rw [mapElementsOfList, textContentOfList, textContentOfList,
      textContent_mapElements g n, textContentOfList_mapElements g ns]
end

mutual
theorem textContent_updateFirst (p : ElementData → Bool)
    (f : ElementData → List DomNode → DomNode)
    (hf : ∀ a cs, textContent (f a cs) = textContentOfList cs) :
    ∀ n n', updateFirstElement p f n = some n' → textContent n' = textContent n
  | DomNode.text _, n', h => by simp [updateFirstElement] at h
  | DomNode.element a cs, n', h => by
    rcases updateFirstElement_element p f a cs n' h with ⟨_, he⟩ | ⟨_, cs', hc, he⟩
    · rw [he, hf, textContent]
    · rw [he, textContent, textContent, textContentOfList_updateFirst p f hf cs cs' hc]
theorem textContentOfList_updateFirst (p : ElementData → Bool)
    (f : ElementData → List DomNode → DomNode)
    (hf : ∀ a cs, textContent (f a cs) = textContentOfList cs) :
    ∀ ns ns', updateFirstElementOfList p f ns = some ns' →
      textContentOfList ns' = textContentOfList ns
  | [], ns', h => by simp [updateFirstElementOfList] at h
  | n :: ns, ns', h => by
    rw [updateFirstElementOfList] at h
    cases hn : updateFirstElement p f n with
    | some n' =>
      simp only [hn] at h
      cases Option.some.inj h
      rw [textContentOfList, textContentOfList, textContent_updateFirst p f hf n n' hn]
    | none =>
      simp only [hn] at h
      cases hr : updateFirstElementOfList p f ns with
      | none => simp [hr] at h
      | some ns'' =>
        simp only [hr] at h
        cases Option.some.inj h
        rw [textContentOfList, textContentOfList,
          textContentOfList_updateFirst p f hf ns ns'' hr]
end

theorem mapElementsOfList_textNodes (g : ElementData → ElementData) (s : String) :
    mapElementsOfList g (textNodes s) = textNodes s := by
  unfold textNodes
  split <;> rfl

theorem updateFirstElementOfList_textNodes (p : ElementData → Bool)
    (f : ElementData → List DomNode → DomNode) (s : String) :
    updateFirstElementOfList p f (textNodes s) = none := by
  unfold textNodes
  split <;> rfl

theorem noTitle_of_all (cs : List DomNode)
    (h : allElementsOfList (fun a => !a.isTitle && !a.isHead) cs = true)
    (f : ElementData → List DomNode → DomNode) :
    updateFirstElementOfList (fun a => a.isTitle) f cs = none := by
  refine updateFirstElementOfList_none_of_forall _ f _ ?_ cs h
  intro a ha
  have ha' : a.isTitle = true := ha
  simp [ha']

theorem noHead_of_all (cs : List DomNode)
    (h : allElementsOfList (fun a => !a.isTitle && !a.isHead) cs = true)
    (f : ElementData → List DomNode → DomNode) :
    updateFirstElementOfList (fun a => a.isHead) f cs = none := by
  refine updateFirstElementOfList_none_of_forall _ f _ ?_ cs h
  intro a ha
  have ha' : a.isHead = true := ha
  simp [ha']

mutual
theorem allElements_mono (r r' : ElementData → Bool) (hr : ∀ a, r a = true → r' a = true) :
    ∀ n, allElements r n = true → allElements r' n = true
  | DomNode.text _, _ => rfl
  | DomNode.element a cs, h => by
    rw [allElements, Bool.and_eq_true] at h
    rw [allElements, Bool.and_eq_true]
    exact ⟨hr a h.1, allElementsOfList_mono r r' hr cs h.2⟩
theorem allElementsOfList_mono (r r' : ElementData → Bool)
    (hr : ∀ a, r a = true → r' a = true) :
    ∀ ns, allElementsOfList r ns = true → allElementsOfList r' ns = true
  | [], _ => rfl
  | n :: ns, h => by
    rw [allElementsOfList, Bool.and_eq_true] at h
    rw [allElementsOfList, Bool.and_eq_true]
    exact ⟨allElements_mono r r' hr n h.1, allElementsOfList_mono r r' hr ns h.2⟩
end

theorem allElementsOfList_textNodes (r : ElementData → Bool) (s : String) :
    allElementsOfList r (textNodes s) = true := by
  unfold textNodes
  split <;> rfl

theorem nodeUnder_setDocumentTitle (q : ElementData → Bool)
    (hq : ∀ a, q a = true → a.isTitle = false) (s : String) (dom : List DomNode)
    (path : List Nat) (a : ElementData) (cs : List DomNode)
    (h : nodeUnder q dom path = some (DomNode.element a cs)) :
    ∃ cs', nodeUnder q (setDocumentTitle s dom) path = some (DomNode.element a cs') ∧
      (a.isTitle = false → a.isHead = false →
        allElementsOfList (fun a => !a.isTitle && !a.isHead) cs = true → cs' = cs) := by
  unfold setDocumentTitle
  cases h1 : updateFirstElementOfList (fun a => a.isTitle)
      (fun a _ => DomNode.element a (textNodes s)) dom with
  | some dom' =>
    simp only []
    have hanc : ∀ b cb, (fun a : ElementData => a.isTitle) b = true → q b = true →
        ∃ b' cb', (fun (a : ElementData) (_ : List DomNode) =>
            DomNode.element a (textNodes s)) b cb = DomNode.element b' cb' ∧
          q b' = true ∧ ∀ path n, nodeUnder q cb path = some n →
            nodeUnder q cb' path = some n := by
      intro b cb hp hb
      have hp' : b.isTitle = true := hp
      rw [hq b hb] at hp'
      cases hp'
    rcases nodeUnder_updateFirst _ q _ hanc path dom dom' a cs h1 h with
      h' | ⟨hp, h'⟩ | ⟨hp, cs', hc, h'⟩
    · exact ⟨cs, h', fun _ _ _ => rfl⟩
    · refine ⟨textNodes s, h', fun ht _ _ => ?_⟩
      have hp' : a.isTitle = true := hp
      rw [ht] at hp'
      cases hp'
    · refine ⟨cs', h', fun _ _ hn => ?_⟩
      rw [noTitle_of_all cs hn] at hc
      cases hc
  | none =>
    simp only []
    cases h2 : updateFirstElementOfList (fun a => a.isHead)
        (fun a cs => DomNode.element a
          (cs ++ [DomNode.element newTitleData (textNodes s)])) dom with
    | some dom' =>
      simp only []
      have hanc : ∀ b cb, (fun a : ElementData => a.isHead) b = true → q b = true →
          ∃ b' cb', (fun (a : ElementData) (cs : List DomNode) => DomNode.element a
              (cs ++ [DomNode.element newTitleData (textNodes s)])) b cb =
                DomNode.element b' cb' ∧
            q b' = true ∧ ∀ path n, nodeUnder q cb path = some n →
              nodeUnder q cb' path = some n := by
        intro b cb _ hb
        exact ⟨b, _, rfl, hb, fun path n hn => nodeUnder_append q _ path cb n hn⟩
      rcases nodeUnder_updateFirst _ q _ hanc path dom dom' a cs h2 h with
        h' | ⟨hp, h'⟩ | ⟨hp, cs', hc, h'⟩
      · exact ⟨cs, h', fun _ _ _ => rfl⟩
      · refine ⟨_, h', fun _ hh _ => ?_⟩
        have hp' : a.isHead = true := hp
        rw [hh] at hp'
        cases hp'
      · refine ⟨cs', h', fun _ _ hn => ?_⟩
        rw [noHead_of_all cs hn] at hc
        cases hc
    | none => exact ⟨cs, h, fun _ _ _ => rfl⟩

theorem nodeUnder_setMetaDescription (q : ElementData → Bool)
    (hq : ∀ a s, q { a with content := s } = q a) (s : String) (dom : List DomNode)
    (path : List Nat) (a : ElementData) (cs : List DomNode)
    (h : nodeUnder q dom path = some (DomNode.element a cs)) :
    ∃ a' cs', nodeUnder q (setMetaDescription s dom) path = some (DomNode.element a' cs') ∧
      a' = { a with content := a'.content } ∧
      textContentOfList cs' = textContentOfList cs ∧
      (∀ t, cs = textNodes t → cs' = cs) := by
  unfold setMetaDescription
  cases h1 : updateFirstElementOfList (fun a => a.isMetaDescription)
      (fun a cs => DomNode.element { a with content := s } cs) dom with
  | some dom' =>
    simp only []
    have hanc : ∀ b cb, (fun a : ElementData => a.isMetaDescription) b = true → q b = true →
        ∃ b' cb', (fun (a : ElementData) (cs : List DomNode) =>
            DomNode.element { a with content := s } cs) b cb = DomNode.element b' cb' ∧
          q b' = true ∧ ∀ path n, nodeUnder q cb path = some n →
            nodeUnder q cb' path = some n := by
      intro b cb _ hb
      exact ⟨_, cb, rfl, by rw [hq]; exact hb, fun _ _ hn => hn⟩
    rcases nodeUnder_updateFirst _ q _ hanc path dom dom' a cs h1 h with
      h' | ⟨_, h'⟩ | ⟨_, cs', hc, h'⟩
    · exact ⟨a, cs, h', rfl, rfl, fun _ _ => rfl⟩
    · exact ⟨{ a with content := s }, cs, h', rfl, rfl, fun _ _ => rfl⟩
    · refine ⟨a, cs', h', rfl, ?_, ?_⟩
      · exact textContentOfList_updateFirst (fun a => a.isMetaDescription)
          (fun a cs => DomNode.element { a with content := s } cs)
          (fun _ _ => by rw [textContent]) cs cs' hc
      · intro t ht
        rw [ht, updateFirstElementOfList_textNodes] at hc
        cases hc
  | none => exact ⟨a, cs, h, rfl, rfl, fun _ _ => rfl⟩

/-- The node at a path after the page title and the description have been set. -/
theorem nodeUnder_titleAndDescription (q : ElementData → Bool)
    (hq1 : ∀ a, q a = true → a.isTitle = false)
    (hq2 : ∀ a s, q { a with content := s } = q a)
    (setTitle setDescription : Bool) (titleText descriptionText : String)
    (dom : List DomNode) (path : List Nat) (a : ElementData) (cs : List DomNode)
    (h : nodeUnder q dom path = some (DomNode.element a cs)) :
    ∃ a' cs',
      nodeUnder q
        (if setDescription = true then
          setMetaDescription descriptionText
            (if setTitle = true then setDocumentTitle titleText dom else dom)
         else (if setTitle = true then setDocumentTitle titleText dom else dom)) path =
        some (DomNode.element a' cs') ∧
      a' = { a with content := a'.content } ∧
      (a.isTitle = false → a.isHead = false →
        allElementsOfList (fun a => !a.isTitle && !a.isHead) cs = true →
        textContentOfList cs' = textContentOfList cs ∧ ∀ t, cs = textNodes t → cs' = cs) := by
  have h4 : ∃ cs4, nodeUnder q (if setTitle = true then setDocumentTitle titleText dom
      else dom) path = some (DomNode.element a cs4) ∧
      (a.isTitle = false → a.isHead = false →
        allElementsOfList (fun a => !a.isTitle && !a.isHead) cs = true → cs4 = cs) := by
    cases setTitle with
    | true => exact nodeUnder_setDocumentTitle q hq1 titleText dom path a cs h
    | false => exact ⟨cs, h, fun _ _ _ => rfl⟩
  obtain ⟨cs4, hn4, hc4⟩ := h4
  cases setDescription with
  | true =>
    obtain ⟨a', cs', hn5, ha', ht, hx⟩ :=
      nodeUnder_setMetaDescription q hq2 descriptionText _ path a cs4 hn4
    refine ⟨a', cs', hn5, ha', fun h1 h2 h3 => ?_⟩
    have := hc4 h1 h2 h3
    subst this
    exact ⟨ht, hx⟩
  | false =>
    refine ⟨a, cs4, hn4, rfl, fun h1 h2 h3 => ?_⟩
    have := hc4 h1 h2 h3
    subst this
    exact ⟨rfl, fun _ _ => rfl⟩

theorem translatePlaceholderData_eq (host : Host) (doc : Doc) (a : ElementData) :
    translatePlaceholderData host doc a =
      { a with placeholder := rendered host doc a.dataI18nPlaceholder a.placeholder } := by
  rcases a with ⟨i, t, hd, m, d1, d2, d3, ph, ti, c, v⟩
  cases d2 with
  | none => rfl
  | some key =>
    simp only [translatePlaceholderData, rendered]
    split_ifs <;> rfl

theorem translateTitleData_eq (host : Host) (doc : Doc) (a : ElementData) :
    translateTitleData host doc a =
      { a with title := rendered host doc a.dataI18nTitle a.title } := by
  rcases a with ⟨i, t, hd, m, d1, d2, d3, ph, ti, c, v⟩
  cases d3 with
  | none => rfl
  | some key =>
    simp only [translateTitleData, rendered]
    split_ifs <;> rfl

theorem rendered_of_descend (host : Host) (doc : Doc) (key old : String) (v : JSValue)
    (hd : descend (split key '.') (JSValue.object doc) = some v)
    (hv : truthy host v = true) :
    rendered host doc (some key) old = toText host v := by
  have hg : getNestedTranslation host doc key = v :=
    foldl_of_descend host (split key '.') (JSValue.object doc) v hd
  simp [rendered, hg, hv]

theorem rendered_of_keepsContent (host : Host) (doc : Doc) (attr : Option String)
    (old : String) (h : keepsContent host doc attr = true) :
    rendered host doc attr old = old := by
  cases attr with
  | none => rfl
  | some key => simp [rendered, keepsContent_falsy host doc key h]

theorem keepsChildren_placeholder (host : Host) (doc : Doc) (a : ElementData) :
    keepsChildren host doc (translatePlaceholderData host doc a) = keepsChildren host doc a := by
  rw [translatePlaceholderData_eq]
  rfl

theorem keepsChildren_title (host : Host) (doc : Doc) (a : ElementData) :
    keepsChildren host doc (translateTitleData host doc a) = keepsChildren host doc a := by
  rw [translateTitleData_eq]
  rfl

theorem plainData_placeholder (host : Host) (doc : Doc) (a : ElementData) :
    plainData (translatePlaceholderData host doc a) = plainData a := by
  rw [translatePlaceholderData_eq]
  rfl

theorem plainData_title (host : Host) (doc : Doc) (a : ElementData) :
    plainData (translateTitleData host doc a) = plainData a := by
  rw [translateTitleData_eq]
  rfl

/-- The element at a path after `applyTranslations` on a non-empty document, when the
children of no element above it are replaced. -/
theorem applyTranslationsDom_at (host : Host) (doc : Doc) (dom : List DomNode)
    (hdoc : doc ≠ []) (path : List Nat) (a : ElementData) (cs : List DomNode)
    (hnode : nodeAt dom path = some (DomNode.element a cs))
    (hanc : ancestorsSatisfy (keepsChildren host doc) dom path = true) :
    ∃ a' cs' c1,
      nodeAt (applyTranslationsDom host doc dom) path = some (DomNode.element a' cs') ∧
      translateTextNode host doc (DomNode.element a cs) = DomNode.element a c1 ∧
      a' = { a with
        placeholder := rendered host doc a.dataI18nPlaceholder a.placeholder,
        title := rendered host doc a.dataI18nTitle a.title,
        content := a'.content } ∧
      (a.isTitle = false → a.isHead = false →
        allElementsOfList (fun a => !a.isTitle && !a.isHead) c1 = true →
        textContentOfList cs' = textContentOfList c1 ∧ ∀ t, c1 = textNodes t → cs' = c1) := by
  have hk : ¬ (objectKeys doc).length = 0 := fun h => hdoc ((objectKeys_length_eq_zero _).1 h)
  have h0 := nodeUnder_of_nodeAt (keepsChildren host doc) path dom _ hnode hanc
  have hq0 : ∀ b, keepsChildren host doc b = true → keepsContent host doc b.dataI18n = true := by
    intro b hb
    simp only [keepsChildren, Bool.and_eq_true] at hb
    exact hb.1
  have hq1 : ∀ b, keepsChildren host doc b = true → b.isTitle = false := by
    intro b hb
    simp only [keepsChildren, Bool.and_eq_true, Bool.not_eq_true'] at hb
    exact hb.2
  have h1 := nodeUnder_translateText host doc _ hq0 path dom _ h0
  have hc1 : ∃ c1, translateTextNode host doc (DomNode.element a cs) = DomNode.element a c1 := by
    rw [translateTextNode]
    cases a.dataI18n with
    | none => exact ⟨_, rfl⟩
    | some key =>
      simp only []
      split_ifs
      · exact ⟨_, rfl⟩
      · exact ⟨_, rfl⟩
  obtain ⟨c1, hc1⟩ := hc1
  rw [hc1] at h1
  have h2 := nodeUnder_mapElements (translatePlaceholderData host doc) _
    (keepsChildren_placeholder host doc) path _ _ h1
  have h3 := nodeUnder_mapElements (translateTitleData host doc) _
    (keepsChildren_title host doc) path _ _ h2
  simp only [mapElements] at h3
  obtain ⟨a', cs', h5, ha', hframe⟩ :=
    nodeUnder_titleAndDescription (keepsChildren host doc) hq1 (fun _ _ => rfl)
      (truthy host (getPropOpt host (getProp host (JSValue.object doc) "meta") "title"))
      (truthy host (getPropOpt host (getProp host (JSValue.object doc) "meta") "description"))
      (toText host (getPropOpt host (getProp host (JSValue.object doc) "meta") "title"))
      (toText host (getPropOpt host (getProp host (JSValue.object doc) "meta") "description"))
      _ path _ _ h3
  refine ⟨a', cs', c1, ?_, hc1, ?_, ?_⟩
  · rw [applyTranslationsDom, if_neg hk]
    exact nodeAt_of_nodeUnder _ path _ _ h5
  · rw [ha', translateTitleData_eq, translatePlaceholderData_eq]
  · intro ht hh hall
    have ht3 : (translateTitleData host doc (translatePlaceholderData host doc a)).isTitle =
        false := by
      rw [translateTitleData_eq, translatePlaceholderData_eq]
      exact ht
    have hh3 : (translateTitleData host doc (translatePlaceholderData host doc a)).isHead =
        false := by
      rw [translateTitleData_eq, translatePlaceholderData_eq]
      exact hh
    have hall3 : allElementsOfList (fun a => !a.isTitle && !a.isHead)
        (mapElementsOfList (translateTitleData host doc)
          (mapElementsOfList (translatePlaceholderData host doc) c1)) = true := by
      rw [allElementsOfList_mapElements _ _ (fun b => by rw [translateTitleData_eq]),
        allElementsOfList_mapElements _ _ (fun b => by rw [translatePlaceholderData_eq])]
      exact hall
    obtain ⟨htext, hsame⟩ := hframe ht3 hh3 hall3
    constructor
    · rw [htext, textContentOfList_mapElements, textContentOfList_mapElements]
    · intro t hc
      subst hc
      have := hsame t (by rw [mapElementsOfList_textNodes, mapElementsOfList_textNodes])
      rw [this, mapElementsOfList_textNodes, mapElementsOfList_textNodes]

/-! ### Pages whose elements hold only text -/

theorem translateTextNodes_textNodes (host : Host) (doc : Doc) (s : String) :
    translateTextNodes host doc (textNodes s) = textNodes s := by
  unfold textNodes
  split <;> rfl

theorem translateTextNode_embedElement (host : Host) (doc : Doc) (el : Element) :
    translateTextNode host doc (embedElement el) = embedElement (translateText host doc el) := by
  rcases el with ⟨i, m, d1, d2, d3, t, ph, ti, c, v⟩
  cases d1 with
  | none => simp [embedElement, translateTextNode, translateText, translateTextNodes_textNodes]
  | some key =>
    simp only [embedElement, translateTextNode, translateText]
    split_ifs
    · rfl
    · rw [translateTextNodes_textNodes]

theorem mapElements_placeholder_embedElement (host : Host) (doc : Doc) (el : Element) :
    mapElements (translatePlaceholderData host doc) (embedElement el) =
      embedElement (translatePlaceholder host doc el) := by
  rcases el with ⟨i, m, d1, d2, d3, t, ph, ti, c, v⟩
  cases d2 with
  | none =>
    simp [embedElement, mapElements, translatePlaceholderData, translatePlaceholder,
      mapElementsOfList_textNodes]
  | some key =>
    simp only [embedElement, mapElements, translatePlaceholderData, translatePlaceholder,
      mapElementsOfList_textNodes]
    split_ifs <;> rfl

theorem mapElements_title_embedElement (host : Host) (doc : Doc) (el : Element) :
    mapElements (translateTitleData host doc) (embedElement el) =
      embedElement (translateTitle host doc el) := by
  rcases el with ⟨i, m, d1, d2, d3, t, ph, ti, c, v⟩
  cases d3 with
  | none =>
    simp [embedElement, mapElements, translateTitleData, translateTitle,
      mapElementsOfList_textNodes]
  | some key =>
    simp only [embedElement, mapElements, translateTitleData, translateTitle,
      mapElementsOfList_textNodes]
    split_ifs <;> rfl

theorem setMetaDescription_embed (s : String) (els : List Element) :
    (match updateFirstElementOfList (fun a => a.isMetaDescription)
        (fun a cs => DomNode.element { a with content := s } cs) (els.map embedElement) with
      | some dom' => dom'
      | none => els.map embedElement) =
      (updateFirst (fun el => el.isMetaDescription) (fun el => { el with content := s })
        els).map embedElement := by
  induction els with
  | nil => rfl
  | cons el els ih =>
    by_cases hm : el.isMetaDescription = true
    · simp [updateFirstElementOfList, updateFirstElement, embedElement, updateFirst, hm]
    · have hm' : el.isMetaDescription = false := by simpa using hm
      have hnone : updateFirstElement (fun a => a.isMetaDescription)
          (fun a cs => DomNode.element { a with content := s } cs) (embedElement el) = none := by
        simp [embedElement, updateFirstElement, hm', updateFirstElementOfList_textNodes]
      simp only [List.map_cons, updateFirstElementOfList, hnone, updateFirst, hm']
      cases hu : updateFirstElementOfList (fun a => a.isMetaDescription)
          (fun a cs => DomNode.element { a with content := s } cs) (els.map embedElement) with
      | some dom' =>
        rw [hu] at ih
        simp only [] at ih
        simp [ih]
      | none =>
        rw [hu] at ih
        simp only [] at ih
        simp [← ih]

theorem translateTextNodes_embedPage (host : Host) (doc : Doc) (page : Page) :
    translateTextNodes host doc (embedPage page) =
      embedPage { page with elements := page.elements.map (translateText host doc) } := by
  rw [translateTextNodes_eq_map]
  simp only [embedPage, List.map_cons, List.map_map]
  congr 1
  · simp [translateTextNode, newTitleData, translateTextNodes_textNodes]
  · apply List.map_congr_left
    intro el _
    exact translateTextNode_embedElement host doc el

theorem mapPlaceholder_embedPage (host : Host) (doc : Doc) (page : Page) :
    mapElementsOfList (translatePlaceholderData host doc) (embedPage page) =
      embedPage { page with elements := page.elements.map (translatePlaceholder host doc) } := by
  rw [mapElementsOfList_eq_map]
  simp only [embedPage, List.map_cons, List.map_map]
  congr 1
  · simp [mapElements, newTitleData, translatePlaceholderData, mapElementsOfList_textNodes]
  · apply List.map_congr_left
    intro el _
    exact mapElements_placeholder_embedElement host doc el

theorem mapTitle_embedPage (host : Host) (doc : Doc) (page : Page) :
    mapElementsOfList (translateTitleData host doc) (embedPage page) =
      embedPage { page with elements := page.elements.map (translateTitle host doc) } := by
  rw [mapElementsOfList_eq_map]
  simp only [embedPage, List.map_cons, List.map_map]
  congr 1
  · simp [mapElements, newTitleData, translateTitleData, mapElementsOfList_textNodes]
  · apply List.map_congr_left
    intro el _
    exact mapElements_title_embedElement host doc el

theorem setDocumentTitle_embedPage (s : String) (page : Page) :
    setDocumentTitle s (embedPage page) = embedPage { page with title := s } := by
  simp [setDocumentTitle, embedPage, updateFirstElementOfList, updateFirstElement,
    newTitleData]

theorem setMetaDescription_embedPage (s : String) (page : Page) :
    setMetaDescription s (embedPage page) =
      embedPage { page with elements := (updateFirst (fun el => el.isMetaDescription)
        (fun el => { el with content := s }) page.elements) } := by
  have h := setMetaDescription_embed s page.elements
  have hnone : updateFirstElement (fun a => a.isMetaDescription)
      (fun a cs => DomNode.element { a with content := s } cs)
      (DomNode.element newTitleData (textNodes page.title)) = none := by
    simp [updateFirstElement, newTitleData, updateFirstElementOfList_textNodes]
  simp only [setMetaDescription, embedPage, updateFirstElementOfList, hnone]
  cases hu : updateFirstElementOfList (fun a => a.isMetaDescription)
      (fun a cs => DomNode.element { a with content := s } cs)
      (page.elements.map embedElement) with
  | some dom' =>
    rw [hu] at h
    simp only [] at h
    simp [h]
  | none =>
    rw [hu] at h
    simp only [] at h
    simp [← h]

/-- On a page whose elements hold only text and do not lie inside one another, the
`applyTranslations` of the element list and that of the tree agree. -/
theorem applyTranslationsDom_embedPage (host : Host) (st : State) :
    applyTranslationsDom host st.currentTranslations (embedPage st.page) =
      embedPage (applyTranslations host st).page := by
  unfold applyTranslationsDom applyTranslations
  by_cases hk : (objectKeys st.currentTranslations).length = 0
  · rw [if_pos hk, if_pos hk]
  · rw [if_neg hk, if_neg hk]
    simp only [translateTextNodes_embedPage, mapPlaceholder_embedPage, mapTitle_embedPage]
    cases ht : truthy host (getPropOpt host
        (getProp host (JSValue.object st.currentTranslations) "meta") "title") <;>
      cases hd : truthy host (getPropOpt host
        (getProp host (JSValue.object st.currentTranslations) "meta") "description") <;>
      simp only [Bool.false_eq_true, if_false, if_true, setDocumentTitle_embedPage,
        setMetaDescription_embedPage]

/-! ## Startup resolution -/

/-- C1: after `initLanguage`, for every URL `lang` value, stored preference and browser
locale (each possibly absent), under every network and runtime, Current Language is the
URL value if it is supported, else the stored preference if it is supported, else the
primary subtag of the browser locale if it is supported, else `en`. -/
theorem initLanguage_priority (env : Env) (host : Host)
    (urlLang navigatorLanguage : Option String) (st : State) :
    (initLanguage env host urlLang navigatorLanguage st).currentLang =
      specResolvedLanguage urlLang st.storedLang navigatorLanguage := by
  rw [initLanguage_currentLang]
  exact resolveLanguage_eq_spec urlLang st.storedLang navigatorLanguage

/-! ## Loading -/

/-- C3: a `loadTranslations(lang)` whose first fetch fails issues, when `lang` is not the
default, exactly one further fetch, for the default locale file, whatever its outcome,
and none when `lang` is the default; every call issues one or two fetches, appended to
the log. -/
theorem loadTranslations_fetches (env : Env) (lang : String) (st : State) :
    ((env.fetch st.fetchLog.length (localeUrl lang)).failed = true → lang ≠ DEFAULT_LANGUAGE →
        (loadTranslations env lang st).fetchLog =
          st.fetchLog ++ [localeUrl lang, localeUrl DEFAULT_LANGUAGE]) ∧
    ((env.fetch st.fetchLog.length (localeUrl lang)).failed = true → lang = DEFAULT_LANGUAGE →
        (loadTranslations env lang st).fetchLog = st.fetchLog ++ [localeUrl DEFAULT_LANGUAGE]) ∧
    (∃ issued, (loadTranslations env lang st).fetchLog = st.fetchLog ++ issued ∧
        1 ≤ issued.length ∧ issued.length ≤ 2) := by
  have hd : ∀ s : State, (loadTranslations env DEFAULT_LANGUAGE s).fetchLog =
      s.fetchLog ++ [localeUrl DEFAULT_LANGUAGE] := by
    intro s
    rw [loadTranslations_default]
    cases env.fetch s.fetchLog.length (localeUrl DEFAULT_LANGUAGE) <;> rfl
  have h1 : (env.fetch st.fetchLog.length (localeUrl lang)).failed = true →
      lang ≠ DEFAULT_LANGUAGE → (loadTranslations env lang st).fetchLog =
        st.fetchLog ++ [localeUrl lang, localeUrl DEFAULT_LANGUAGE] := by
    intro hf hne
    rw [loadTranslations_failed env lang st hf, if_pos hne, hd]
    simp
  have h2 : (env.fetch st.fetchLog.length (localeUrl lang)).failed = true →
      lang = DEFAULT_LANGUAGE → (loadTranslations env lang st).fetchLog =
        st.fetchLog ++ [localeUrl DEFAULT_LANGUAGE] := by
    intro hf he
    subst he
    exact hd st
  refine ⟨h1, h2, ?_⟩
  cases hf : (env.fetch st.fetchLog.length (localeUrl lang)).failed with
  | true =>
    by_cases he : lang = DEFAULT_LANGUAGE
    · exact ⟨_, h2 hf he, by simp⟩
    · exact ⟨_, h1 hf he, by simp⟩
  | false =>
    cases hr : env.fetch st.fetchLog.length (localeUrl lang) with
    | ok doc =>
      rw [loadTranslations_ok env lang st doc hr]
      exact ⟨[localeUrl lang], rfl, by simp⟩
    | networkError => simp [hr, FetchResult.failed] at hf
    | notOk => simp [hr, FetchResult.failed] at hf
    | malformed => simp [hr, FetchResult.failed] at hf

/-- Witness of C3 on a network where every request fails: requesting `de` fetches the
German and then the English file, and nothing more. -/
theorem loadTranslations_fetches_witness :
    (offlineEnv.fetch startState.fetchLog.length (localeUrl "de")).failed = true ∧
    "de" ≠ DEFAULT_LANGUAGE ∧
    (loadTranslations offlineEnv "de" startState).fetchLog =
      startState.fetchLog ++ [localeUrl "de", localeUrl DEFAULT_LANGUAGE] :=
  ⟨rfl, by decide,
    (loadTranslations_fetches offlineEnv "de" startState).1 rfl (by decide)⟩

/-- C4: if the fetch of the requested code fails and, when the default is tried, its
fetch fails too, `loadTranslations` leaves the active Translation Document as it was. -/
theorem loadTranslations_all_failed_keeps_document (env : Env) (lang : String) (st : State)
    (hfirst : (env.fetch st.fetchLog.length (localeUrl lang)).failed = true)
    (hsecond : lang ≠ DEFAULT_LANGUAGE →
      (env.fetch (st.fetchLog.length + 1) (localeUrl DEFAULT_LANGUAGE)).failed = true) :
    (loadTranslations env lang st).currentTranslations = st.currentTranslations := by
  rw [loadTranslations_failed env lang st hfirst]
  split
  · rename_i hne
    have h2 := hsecond hne
    rw [loadTranslations_failed env DEFAULT_LANGUAGE _ (by simpa using h2)]
    simp
  · rfl

/-- Witness of C4: with the German document active and the network down, a request for
French leaves the German document active. -/
theorem loadTranslations_all_failed_keeps_document_witness :
    (offlineEnv.fetch 0 (localeUrl "fr")).failed = true ∧
    (offlineEnv.fetch 1 (localeUrl DEFAULT_LANGUAGE)).failed = true ∧
    (loadTranslations offlineEnv "fr"
      { startState with currentTranslations := deDoc }).currentTranslations = deDoc :=
  ⟨rfl, rfl, loadTranslations_all_failed_keeps_document offlineEnv "fr"
    { startState with currentTranslations := deDoc } rfl (fun _ => rfl)⟩

/-! ## Language change -/

/-- C5: for a code outside `SUPPORTED_LANGUAGES`, `changeLanguage` returns the state it
was given: no fetch is logged, and Current Language, the document, the stored preference
and the page are the same. -/
theorem changeLanguage_unsupported_ignored (env : Env) (host : Host) (lang : String)
    (st : State) (h : lang ∉ SUPPORTED_LANGUAGES) : changeLanguage env host lang st = st := by
  unfold changeLanguage
  simp [h]

/-- Witness of C5 with the code `xx`. -/
theorem changeLanguage_unsupported_ignored_witness :
    "xx" ∉ SUPPORTED_LANGUAGES ∧
    changeLanguage englishOnlyEnv bareHost "xx" startState = startState :=
  ⟨by decide, changeLanguage_unsupported_ignored englishOnlyEnv bareHost "xx" startState
    (by decide)⟩

/-- C6: in every reachable state `getCurrentLang()` is a member of
`SUPPORTED_LANGUAGES`. -/
theorem currentLang_supported (st : State) (h : Reachable st) :
    getCurrentLang st ∈ SUPPORTED_LANGUAGES := by
  unfold getCurrentLang
  induction h with
  | start page stored htmlLang =>
    show DEFAULT_LANGUAGE ∈ SUPPORTED_LANGUAGES
    decide
  | initLanguage env host urlLang navigatorLanguage st _ _ =>
    rw [initLanguage_currentLang, resolveLanguage_eq_spec]
    exact specResolvedLanguage_mem _ _ _
  | changeLanguage env host lang st _ ih =>
    unfold changeLanguage
    cases hb : SUPPORTED_LANGUAGES.contains lang with
    | false => simpa using ih
    | true =>
      simp only [Bool.not_true, Bool.false_eq_true, if_false,
        updateLanguageSelector_currentLang, applyTranslations_currentLang,
        loadTranslations_currentLang]
      exact List.elem_iff.1 hb
  | loadTranslations env lang st _ ih => rw [loadTranslations_currentLang]; exact ih
  | applyTranslations host st _ ih => rw [applyTranslations_currentLang]; exact ih
  | updateLanguageSelector host st _ ih => exact ih
  | outside stored page st _ ih => exact ih

/-- Witness of C6: the state after startup with `?lang=fr` and a later request for `xx`
is reachable, and its Current Language is supported. -/
theorem currentLang_supported_witness :
    Reachable (changeLanguage englishOnlyEnv bareHost "xx"
      (initLanguage englishOnlyEnv bareHost (some "fr") (some "de-DE") startState)) ∧
    getCurrentLang (changeLanguage englishOnlyEnv bareHost "xx"
      (initLanguage englishOnlyEnv bareHost (some "fr") (some "de-DE") startState)) ∈
        SUPPORTED_LANGUAGES :=
  ⟨Reachable.changeLanguage _ _ _ _ (Reachable.initLanguage _ _ _ _ _ (Reachable.start _ _ _)),
   currentLang_supported _
    (Reachable.changeLanguage _ _ _ _ (Reachable.initLanguage _ _ _ _ _ (Reachable.start _ _ _)))⟩

/-- Where C2 holds: in a `changeLanguage` whose first fetch succeeds, the document of
the requested code becomes active, and Current Language and the stored preference are
that code. -/
theorem changeLanguage_direct_success (env : Env) (host : Host) (lang : String) (st : State)
    (doc : Doc) (hs : lang ∈ SUPPORTED_LANGUAGES)
    (hf : env.fetch st.fetchLog.length (localeUrl lang) = FetchResult.ok doc) :
    (changeLanguage env host lang st).currentTranslations = doc ∧
    getCurrentLang (changeLanguage env host lang st) = lang ∧
    (changeLanguage env host lang st).storedLang = some lang := by
  have hc : changeLanguage env host lang st =
      updateLanguageSelector host (applyTranslations host
        (loadTranslations env lang { st with currentLang := lang })) := by
    simp [changeLanguage, hs]
  have hl := loadTranslations_ok env lang { st with currentLang := lang } doc hf
  rw [hc, hl]
  refine ⟨?_, ?_, ?_⟩
  · show (applyTranslations host _).currentTranslations = doc
    rw [(applyTranslations_preserves host _).1]
  · show (applyTranslations host _).currentLang = lang
    rw [applyTranslations_currentLang]
  · show (applyTranslations host _).storedLang = some lang
    rw [(applyTranslations_preserves host _).2.1]

/-- The end-to-end example of the specification: no URL parameter, nothing stored and
browser locale `de-DE`, on a network that serves the German file, give Current
Language `de`, stored preference `de` and the German document. -/
theorem initLanguage_de_DE :
    getCurrentLang (initLanguage englishGermanEnv bareHost none (some "de-DE") startState) = "de" ∧
    (initLanguage englishGermanEnv bareHost none (some "de-DE") startState).storedLang =
      some "de" ∧
    (initLanguage englishGermanEnv bareHost none (some "de-DE") startState).currentTranslations =
      deDoc := by
  have hr : resolveLanguage none startState.storedLang (browserPrimarySubtag (some "de-DE")) =
      "de" := by decide
  unfold initLanguage
  simp only [hr]
  rw [loadTranslations_ok englishGermanEnv "de" _ deDoc rfl]
  exact ⟨rfl, rfl, rfl⟩

/-- C2, at the fallback: `changeLanguage("de")` on a network that serves only the
English file ends with the English document active, the stored preference and the
`lang` attribute `en`, the display element showing `English`, and yet
`getCurrentLang()` and the selector at `de`. -/
theorem changeLanguage_fallback_keeps_requested_code :
    changeLanguage englishOnlyEnv bareHost "de" (initialState selectorPage none "en") =
      { currentTranslations := enDoc, currentLang := "de", storedLang := some "en",
        htmlLang := "en", fetchLog := ["/locales/de.json", "/locales/en.json"],
        page := fallbackPage } := by
  unfold changeLanguage
  rw [if_neg (by decide)]
  simp only []
  rw [loadTranslations_failed _ _ _ (by rfl), if_pos (by decide),
    loadTranslations_ok _ _ _ enDoc (by rfl)]
  rfl

/-! ## Lookup -/

/-- Where C7 holds: when every segment of the key is an entry of the mapping reached so
far, `getNestedTranslation` returns the value reached, under every runtime. -/
theorem getNestedTranslation_of_descend (host : Host) (doc : Doc) (key : String) (r : JSValue)
    (h : descend (split key '.') (JSValue.object doc) = some r) :
    getNestedTranslation host doc key = r :=
  foldl_of_descend host (split key '.') (JSValue.object doc) r h

/-- The lookup example of the specification, in a runtime without inherited members. -/
theorem getNestedTranslation_examples :
    getNestedTranslation bareHost helloDoc "a.b" = JSValue.string "Hello" ∧
    getNestedTranslation bareHost helloDoc "a.c" = JSValue.undefined ∧
    getNestedTranslation bareHost helloDoc "z" = JSValue.undefined :=
  ⟨rfl, rfl, rfl⟩

/-- C7, past a leaf: on the document `{"a":{"b":"Hello"}}` the key `a.b.0`, whose
segment `0` is an entry of no mapping, yields the string `H`, and `a.b.length` the
number 5, under every runtime. -/
theorem getNestedTranslation_past_leaf (host : Host) :
    descend (split "a.b.0" '.') (JSValue.object helloDoc) = none ∧
    getNestedTranslation host helloDoc "a.b.0" = JSValue.string "H" ∧
    getNestedTranslation host helloDoc "a.b.length" = JSValue.number 5 :=
  ⟨rfl, rfl, rfl⟩

/-! ## Applying translations -/

/-- C9: `applyTranslations` is idempotent: for every page (elements with their
annotations, page title, description meta-element), every active document and every
runtime, applying it twice gives the state that applying it once gives. -/
theorem applyTranslations_idempotent (host : Host) (st : State) :
    applyTranslations host (applyTranslations host st) = applyTranslations host st := by
  by_cases hk : (objectKeys st.currentTranslations).length = 0
  · simp [applyTranslations, hk]
  · have hdoc : (applyTranslations host st).currentTranslations = st.currentTranslations := by
      simp [applyTranslations, hk]
    rw [applyTranslations.eq_1 host (applyTranslations host st), hdoc, if_neg hk]
    rw [applyTranslations.eq_1 host st, if_neg hk]
    simp only [translate_passes]
    cases hd : truthy host (getPropOpt host
        (getProp host (JSValue.object st.currentTranslations) "meta") "description") with
    | true =>
      simp only [if_true, translate_meta_idem]
      split_ifs <;> rfl
    | false =>
      simp only [Bool.false_eq_true, if_false, List.map_map]
      have hg : translateAll host st.currentTranslations ∘ translateAll host st.currentTranslations
          = translateAll host st.currentTranslations := by
        funext el
        exact translateAll_idem host st.currentTranslations el
      rw [hg]
      split_ifs <;> rfl

/-- C8 as stated fails, on `landingDom` with `landingDoc` active.  The key
`hero.subtitle` resolves (to the empty string), yet the paragraph annotated with it keeps
`Old text`.  The key `hero.missing` lacks a segment, yet the block annotated with it
changes from `Hello x` to `Hello Home` through the link inside it.  The emphasis
annotated `nav.home` for its title lies in the heading whose text is replaced, and is no
longer on the page.  The `title` and `html` elements carry no annotation, yet their
text changes, and so does the content of the description meta-element; on `untitledDom`
the text of the `head` element changes. -/
theorem applyTranslationsDom_nested_and_empty_leaf :
    descend (split "hero.subtitle" '.') (JSValue.object landingDoc) =
      some (JSValue.string "") ∧
    textContentAt (applyTranslationsDom bareHost landingDoc landingDom) [0, 1, 0] =
      some "Old text" ∧
    descend (split "hero.missing" '.') (JSValue.object landingDoc) = none ∧
    textContentAt landingDom [0, 1, 1] = some "Hello x" ∧
    textContentAt (applyTranslationsDom bareHost landingDoc landingDom) [0, 1, 1] =
      some "Hello Home" ∧
    (dataAt landingDom [0, 1, 2, 0]).map (fun a => a.dataI18nTitle) =
      some (some "nav.home") ∧
    descend (split "nav.home" '.') (JSValue.object landingDoc) = some (JSValue.string "Home") ∧
    dataAt (applyTranslationsDom bareHost landingDoc landingDom) [0, 1, 2, 0] = none ∧
    textContentAt (applyTranslationsDom bareHost landingDoc landingDom) [0, 1, 2] =
      some "Welcome" ∧
    (dataAt landingDom [0, 0, 0]).map
      (fun a => (a.dataI18n, a.dataI18nPlaceholder, a.dataI18nTitle)) =
        some (none, none, none) ∧
    textContentAt landingDom [0, 0, 0] = some "Old title" ∧
    textContentAt (applyTranslationsDom bareHost landingDoc landingDom) [0, 0, 0] =
      some "FleetKeeper" ∧
    (dataAt landingDom [0]).map (fun a => (a.dataI18n, a.dataI18nPlaceholder, a.dataI18nTitle))
      = some (none, none, none) ∧
    textContentAt landingDom [0] = some "Old titleOld textHello xold" ∧
    textContentAt (applyTranslationsDom bareHost landingDoc landingDom) [0] =
      some "FleetKeeperOld textHello HomeWelcome" ∧
    (dataAt landingDom [0, 0, 1]).map
      (fun a => (a.dataI18n, a.dataI18nPlaceholder, a.dataI18nTitle, a.content)) =
        some (none, none, none, "Old description") ∧
    (dataAt (applyTranslationsDom bareHost landingDoc landingDom) [0, 0, 1]).map
      (fun a => a.content) = some "Fleet management" ∧
    (dataAt untitledDom [0, 0]).map
      (fun a => (a.dataI18n, a.dataI18nPlaceholder, a.dataI18nTitle)) =
        some (none, none, none) ∧
    textContentAt untitledDom [0, 0] = some "" ∧
    textContentAt (applyTranslationsDom bareHost landingDoc untitledDom) [0, 0] =
      some "FleetKeeper" :=
  ⟨rfl, rfl, rfl, rfl, rfl, rfl, rfl, rfl, rfl, rfl, rfl, rfl, rfl, rfl, rfl, rfl, rfl, rfl,
    rfl, rfl⟩

/-- C8, amended, on the tree of the page.  With an empty document `applyTranslations`
changes nothing.  With a non-empty one, take an element none of whose ancestors has its
children replaced (no ancestor is a `title` element, and the `data-i18n` key of each
ancestor, if it has one, resolves to an empty string or lacks a segment in the mapping
reached).  The element is still at its place, with the same attributes apart from
`placeholder`, `title` and `content`.  Where the key of its `data-i18n`,
`data-i18n-placeholder` or `data-i18n-title` annotation resolves to a truthy value (a
non-empty string, in particular), its children are replaced by the text of that value
(for an element that is neither a `title` nor the `head` element), or its `placeholder`
or `title` is that text.  Where it has no such annotation, or the key resolves to an
empty string, or a segment of the key is missing in the mapping reached and names no
inherited member, its `placeholder` or `title` is untouched, and so is its text when it
is neither a `title` nor the `head` element and nothing inside it carries a `data-i18n`
annotation or is a `title` or `head` element. -/
theorem applyTranslationsDom_renders (host : Host) (doc : Doc) (dom : List DomNode) :
    (doc = [] → applyTranslationsDom host doc dom = dom) ∧
    (doc ≠ [] →
      ∀ (path : List Nat) (a : ElementData) (cs : List DomNode),
        nodeAt dom path = some (DomNode.element a cs) →
        ancestorsSatisfy (keepsChildren host doc) dom path = true →
        ∃ a' cs',
          nodeAt (applyTranslationsDom host doc dom) path = some (DomNode.element a' cs') ∧
          a' = { a with placeholder := a'.placeholder, title := a'.title,
                        content := a'.content } ∧
          (∀ key v, a.dataI18n = some key →
            descend (split key '.') (JSValue.object doc) = some v → truthy host v = true →
            a.isTitle = false → a.isHead = false → cs' = textNodes (toText host v)) ∧
          (∀ key v, a.dataI18nPlaceholder = some key →
            descend (split key '.') (JSValue.object doc) = some v → truthy host v = true →
            a'.placeholder = toText host v) ∧
          (∀ key v, a.dataI18nTitle = some key →
            descend (split key '.') (JSValue.object doc) = some v → truthy host v = true →
            a'.title = toText host v) ∧
          (keepsContent host doc a.dataI18n = true → a.isTitle = false → a.isHead = false →
            plainNodes cs = true → textContentOfList cs' = textContentOfList cs) ∧
          (keepsContent host doc a.dataI18nPlaceholder = true →
            a'.placeholder = a.placeholder) ∧
          (keepsContent host doc a.dataI18nTitle = true → a'.title = a.title)) := by
  constructor
  · intro h
    unfold applyTranslationsDom
    rw [if_pos ((objectKeys_length_eq_zero _).2 h)]
  · intro hdoc path a cs hnode hanc
    obtain ⟨a', cs', c1, hres, hc1, ha', hframe⟩ :=
      applyTranslationsDom_at host doc dom hdoc path a cs hnode hanc
    have hpl : a'.placeholder = rendered host doc a.dataI18nPlaceholder a.placeholder := by
      rw [ha']
    have hti : a'.title = rendered host doc a.dataI18nTitle a.title := by
      rw [ha']
    refine ⟨a', cs', hres, ?_, ?_, ?_, ?_, ?_, ?_, ?_⟩
    · rw [ha']
    · intro key v hk hd hv ht hh
      rw [translateTextNode_replaced host doc a cs key v hk hd hv] at hc1
      have hc : c1 = textNodes (toText host v) := by
        injection hc1 with _ h2
        exact h2.symm
      subst hc
      exact (hframe ht hh (allElementsOfList_textNodes _ _)).2 _ rfl
    · intro key v hk hd hv
      rw [hpl, hk, rendered_of_descend host doc key _ v hd hv]
    · intro key v hk hd hv
      rw [hti, hk, rendered_of_descend host doc key _ v hd hv]
    · intro hkeep ht hh hplain
      rw [translateTextNode_kept host doc a cs hkeep, translateTextNodes_plain host doc cs hplain]
        at hc1
      have hc : c1 = cs := by
        injection hc1 with _ h2
        exact h2.symm
      subst hc
      refine (hframe ht hh ?_).1
      exact allElementsOfList_mono plainData _ (fun b hb => by
        simp only [plainData, Bool.and_eq_true] at hb
        simp only [Bool.and_eq_true]
        exact ⟨hb.1.2, hb.2⟩) c1 hplain
    · intro hkeep
      rw [hpl, rendered_of_keepsContent host doc _ _ hkeep]
    · intro hkeep
      rw [hti, rendered_of_keepsContent host doc _ _ hkeep]

/-- Witness of C8, amended, on `landingDom` with `landingDoc` active: the link annotated
`nav.home` lies in a block whose key `hero.missing` lacks a segment, in `body`, in
`html`; its key resolves to `Home`, and after `applyTranslations` its text is `Home`. -/
theorem applyTranslationsDom_renders_witness :
    landingDoc ≠ [] ∧
    nodeAt landingDom [0, 1, 1, 1] =
      some (DomNode.element { blankData with dataI18n := some "nav.home" }
        [DomNode.text "x"]) ∧
    ancestorsSatisfy (keepsChildren bareHost landingDoc) landingDom [0, 1, 1, 1] = true ∧
    descend (split "nav.home" '.') (JSValue.object landingDoc) = some (JSValue.string "Home") ∧
    textContentAt (applyTranslationsDom bareHost landingDoc landingDom) [0, 1, 1, 1] =
      some "Home" := by
  refine ⟨List.cons_ne_nil _ _, rfl, rfl, rfl, ?_⟩
  obtain ⟨a', cs', hnode, _, htext, _⟩ :=
    (applyTranslationsDom_renders bareHost landingDoc landingDom).2 (List.cons_ne_nil _ _)
      [0, 1, 1, 1] { blankData with dataI18n := some "nav.home" } [DomNode.text "x"] rfl rfl
  have hcs := htext "nav.home" (JSValue.string "Home") rfl rfl rfl rfl rfl
  rw [textContentAt, hnode, hcs]
  rfl

/-! ## Cookies -/

/-- C10 as stated fails: in the cookie string ` a=1` the only entry has the name ` a`
(no `=`, no `;`), so no entry is named `a`, yet `getCookie("a")` returns `1`; and in
`cookie_consent=; cookie_consent=all` an entry with a non-empty value exists, yet the
banner is scheduled. -/
theorem getCookie_spaced_name_found :
    renderCookies spacedNameCookies = " a=1" ∧
    spacedNameCookies.find? (fun e => e.name == "a") = none ∧
    getCookie (renderCookies spacedNameCookies) "a" = some "1" ∧
    renderCookies shadowedConsentCookies = "cookie_consent=; cookie_consent=all" ∧
    initCookieConsent true (renderCookies shadowedConsentCookies) = true := by
  decide

/-- C10, amended: for a cookie string made of entries `name=value` separated by `;`,
each preceded by any number of spaces, whose names contain no `=` and no `;` and do not
begin with a space and whose values contain no `;`, and for a queried name without `=`,
`getCookie` returns the value of the first entry with exactly that name, and `null` when
there is none; with the banner element present, showing the banner is scheduled exactly
when the first `cookie_consent` entry is missing or has an empty value. -/
theorem getCookie_first_entry (entries : List CookieEntry) (name : String)
    (hname : '=' ∉ name.data)
    (hnames : ∀ e ∈ entries,
      '=' ∉ e.name.data ∧ ';' ∉ e.name.data ∧ e.name.data.head? ≠ some ' ')
    (hvalues : ∀ e ∈ entries, ';' ∉ e.value.data) :
    getCookie (renderCookies entries) name =
      (entries.find? (fun e => e.name == name)).map CookieEntry.value ∧
    initCookieConsent true (renderCookies entries) =
      match entries.find? (fun e => e.name == "cookie_consent") with
      | none => true
      | some e => e.value == "" := by
  refine ⟨getCookie_renderCookies entries name hname hnames hvalues, ?_⟩
  unfold initCookieConsent
  rw [getCookie_renderCookies entries "cookie_consent" (by decide) hnames hvalues]
  cases entries.find? (fun e => e.name == "cookie_consent") <;> rfl

/-- Witness of C10, amended: in `theme=dark; cookie_consent=all;  cookie_consent_seen=1`
the query `cookie_consent` finds `all`, and the banner is not scheduled. -/
theorem getCookie_first_entry_witness :
    '=' ∉ "cookie_consent".data ∧
    (∀ e ∈ consentCookies,
      '=' ∉ e.name.data ∧ ';' ∉ e.name.data ∧ e.name.data.head? ≠ some ' ') ∧
    (∀ e ∈ consentCookies, ';' ∉ e.value.data) ∧
    getCookie (renderCookies consentCookies) "cookie_consent" = some "all" ∧
    initCookieConsent true (renderCookies consentCookies) = false :=
  ⟨by decide, by decide, by decide,
    (getCookie_first_entry consentCookies "cookie_consent" (by decide) (by decide)
      (by decide)).1,
    (getCookie_first_entry consentCookies "cookie_consent" (by decide) (by decide)
      (by decide)).2⟩

end FleetKeeper
